import Mathlib

/-!
# Verification of the high-utility itemset mining repository

Shallow embedding of the four algorithm scripts of the repository
(`ehmin.py`, `ehmun.py`, `tkn.py`, `tkhuim_ga.py`) and proofs of the
specification claims about them.

Items are opaque identifiers; we model them as natural numbers.
A transaction is a TID plus three parallel sequences (items, quantities,
profit).  Python's `zip` truncates to the shortest sequence and indexed
access `xs[i]` is total only for `i < len xs`; where the source indexes,
we use `List.getD` with default `0` and state theorems under the
well-formedness invariant of the data model (equal lengths, no duplicate
item in a transaction, positive quantities), under which the embedding
coincides with the source behaviour.
-/

set_option maxHeartbeats 1000000
set_option maxRecDepth 10000

abbrev Item := Nat

structure Transaction where
  tid : Nat
  items : List Item
  quantities : List Int
  profit : List Int
deriving DecidableEq, Repr

/-- Data-model invariant of a transaction (spec section 3): three parallel
sequences of equal length, no duplicate item, positive quantities. -/
def WFTransaction (t : Transaction) : Prop :=
  t.quantities.length = t.items.length ∧ t.profit.length = t.items.length ∧
    t.items.Nodup ∧ ∀ q ∈ t.quantities, 0 < q

instance : DecidablePred WFTransaction := fun t => by
  unfold WFTransaction; infer_instance

/-- Data-model invariant of a database: every transaction is well formed. -/
def WFDatabase (db : List Transaction) : Prop := ∀ t ∈ db, WFTransaction t

instance (db : List Transaction) : Decidable (WFDatabase db) :=
  List.decidableBAll _ db

/-- Python `range(len(transaction["items"]))`. -/
def idxRange (t : Transaction) : List Nat := List.range t.items.length

/-- `transaction["items"][i]` (total via a default). -/
def itemAt (t : Transaction) (i : Nat) : Item := t.items.getD i 0

/-- `transaction["quantities"][i]` (total via a default). -/
def qtyAt (t : Transaction) (i : Nat) : Int := t.quantities.getD i 0

/-- `transaction["profit"][i]` (total via a default). -/
def profitAt (t : Transaction) (i : Nat) : Int := t.profit.getD i 0

/-- `transaction["profit"][i] * transaction["quantities"][i]`. -/
def utilAt (t : Transaction) (i : Nat) : Int := profitAt t i * qtyAt t i

/-- The row view of a transaction: the item/quantity/profit triples. -/
def rowsOf (t : Transaction) : List (Item × Int × Int) :=
  t.items.zip (t.quantities.zip t.profit)

/-- The triple of parallel-sequence entries at index `i`. -/
def tripleAt (t : Transaction) (i : Nat) : Item × Int × Int :=
  (itemAt t i, qtyAt t i, profitAt t i)

/-- `profit * quantity` of a row. -/
def rowVal (r : Item × Int × Int) : Int := r.2.2 * r.2.1

/-! ## ehmun.py: bound calculator and utilities (EMHUNAlgorithm) -/

/-- `EMHUNAlgorithm.calculate_RTWU`: for every transaction containing the
item, add the transaction's positive-profit utility sum. -/
def calculate_RTWU (db : List Transaction) (item : Item) : Int :=
  ((db.filter (fun t => decide (item ∈ t.items))).map (fun t =>
    (((idxRange t).filter (fun i => decide (0 < profitAt t i))).map
      (fun i => utilAt t i)).sum)).sum

/-- `EMHUNAlgorithm.calculate_rru`: positive-profit utility of every item of
the transaction other than `z`. -/
def calculate_rru (z : Item) (t : Transaction) : Int :=
  (((idxRange t).filter
      (fun i => decide (itemAt t i ≠ z) && decide (0 < profitAt t i))).map
    (fun i => utilAt t i)).sum

/-- `EMHUNAlgorithm.calculate_RSU`: over transactions containing `X ∪ {z}`,
sum `u(X) + u(z) + rru(z)`. -/
def calculate_RSU (db : List Transaction) (X : List Item) (z : Item) : Int :=
  ((db.filter (fun t =>
      decide (∀ x ∈ X, x ∈ t.items) && decide (z ∈ t.items))).map (fun t =>
    (((idxRange t).filter (fun i => decide (itemAt t i ∈ X))).map
        (fun i => utilAt t i)).sum
      + profitAt t (t.items.indexOf z) * qtyAt t (t.items.indexOf z)
      + calculate_rru z t)).sum

/-- `EMHUNAlgorithm.calculate_utility`: exact utility of an itemset — over
transactions containing the whole itemset, sum `profit * quantity` of the
member items. -/
def calculate_utility (db : List Transaction) (itemset : List Item) : Int :=
  ((db.filter (fun t => decide (∀ x ∈ itemset, x ∈ t.items))).map (fun t =>
    (((idxRange t).filter (fun i => decide (itemAt t i ∈ itemset))).map
      (fun i => utilAt t i)).sum)).sum

/-- The inner loop of `EMHUNAlgorithm.create_projected_database`: drop the
members of `itemset` from the three parallel sequences. -/
def project_transaction (t : Transaction) (itemset : List Item) : Transaction :=
  let keep := (idxRange t).filter (fun i => decide (itemAt t i ∉ itemset))
  { tid := t.tid
    items := keep.map (fun i => itemAt t i)
    quantities := keep.map (fun i => qtyAt t i)
    profit := keep.map (fun i => profitAt t i) }

/-- `EMHUNAlgorithm.create_projected_database`: restrict to transactions
containing `itemset` and strip the members of `itemset`. -/
def create_projected_database (db : List Transaction) (itemset : List Item) :
    List Transaction :=
  (db.filter (fun t => decide (∀ x ∈ itemset, x ∈ t.items))).map
    (fun t => project_transaction t itemset)

/-! ## Generic sum and filter lemmas -/

theorem sum_filter_le_sum_filter {α : Type} (l : List α) (P Q : α → Bool)
    (f g : α → Int)
    (h1 : ∀ x ∈ l, P x = true → Q x = true → f x ≤ g x)
    (h2 : ∀ x ∈ l, P x = true → Q x = false → f x ≤ 0)
    (h3 : ∀ x ∈ l, P x = false → Q x = true → 0 ≤ g x) :
    ((l.filter P).map f).sum ≤ ((l.filter Q).map g).sum := by
  induction l with
  | nil => simp
  | cons x l ih =>
    have ih' := ih (fun y hy => h1 y (List.mem_cons_of_mem x hy))
      (fun y hy => h2 y (List.mem_cons_of_mem x hy))
      (fun y hy => h3 y (List.mem_cons_of_mem x hy))
    rcases hP : P x <;> rcases hQ : Q x <;>
      simp only [List.filter_cons, hP, hQ, if_true, if_false, List.map_cons,
        List.sum_cons, Bool.false_eq_true, ite_false, ite_true]
    · exact ih'
    · have := h3 x (List.mem_cons_self x l) hP hQ
      linarith
    · have := h2 x (List.mem_cons_self x l) hP hQ
      linarith
    · have := h1 x (List.mem_cons_self x l) hP hQ
      linarith

theorem sum_filter_or {α : Type} (l : List α) (P Q : α → Bool) (f : α → Int)
    (hdisj : ∀ x ∈ l, ¬(P x = true ∧ Q x = true)) :
    ((l.filter (fun x => P x || Q x)).map f).sum
      = ((l.filter P).map f).sum + ((l.filter Q).map f).sum := by
  induction l with
  | nil => simp
  | cons x l ih =>
    have ih' := ih (fun y hy => hdisj y (List.mem_cons_of_mem x hy))
    rcases hP : P x <;> rcases hQ : Q x
    · simp only [List.filter_cons, hP, hQ, Bool.or_false, Bool.false_eq_true,
        if_false]
      exact ih'
    · simp only [List.filter_cons, hP, hQ, Bool.false_or, Bool.false_eq_true,
        if_false, if_true, List.map_cons, List.sum_cons]
      rw [ih']; ring
    · simp only [List.filter_cons, hP, hQ, Bool.or_false, Bool.false_eq_true,
        if_false, if_true, List.map_cons, List.sum_cons]
      rw [ih']; ring
    · exact absurd ⟨hP, hQ⟩ (hdisj x (List.mem_cons_self x l))

theorem sum_filter_nonneg {α : Type} (l : List α) (P : α → Bool) (f : α → Int)
    (h : ∀ x ∈ l, P x = true → 0 ≤ f x) :
    0 ≤ ((l.filter P).map f).sum := by
  apply List.sum_nonneg
  intro v hv
  rcases List.mem_map.mp hv with ⟨x, hx, rfl⟩
  exact h x (List.mem_of_mem_filter hx) (List.of_mem_filter hx)

/-- Bridge between index-based iteration (`for i in range(len(items))`) and
the row view of a transaction, for equal-length parallel sequences. -/
theorem range_filter_map_triple (C : Item × Int × Int → Bool) :
    ∀ (its : List Item) (qs ps : List Int), qs.length = its.length →
      ps.length = its.length →
      ((List.range its.length).filter
          (fun i => C (its.getD i 0, qs.getD i 0, ps.getD i 0))).map
        (fun i => (its.getD i 0, qs.getD i 0, ps.getD i 0))
      = (its.zip (qs.zip ps)).filter C := by
  intro its
  induction its with
  | nil => intro qs ps _ _; simp
  | cons a its ih =>
    intro qs ps hq hp
    match qs, hq with
    | q :: qs, hq =>
      match ps, hp with
      | p :: ps, hp =>
        have hq' : qs.length = its.length := by simpa using hq
        have hp' : ps.length = its.length := by simpa using hp
        have hrange : List.range (a :: its).length
            = 0 :: (List.range its.length).map Nat.succ := by
          simp [List.range_succ_eq_map]
        rw [hrange]
        rw [List.filter_cons]
        have hcomp : ((List.range its.length).map Nat.succ).filter
              (fun i => C ((a :: its).getD i 0, (q :: qs).getD i 0,
                (p :: ps).getD i 0))
            = ((List.range its.length).filter
                (fun i => C (its.getD i 0, qs.getD i 0, ps.getD i 0))).map
              Nat.succ := by
          rw [List.filter_map]
          rfl
        by_cases hC : C (a, q, p) = true
        · simp only [List.getD_cons_zero, hC, if_true, List.map_cons]
          rw [hcomp, List.map_map]
          have : ((List.range its.length).filter
                (fun i => C (its.getD i 0, qs.getD i 0, ps.getD i 0))).map
                ((fun i => ((a :: its).getD i 0, (q :: qs).getD i 0,
                  (p :: ps).getD i 0)) ∘ Nat.succ)
              = ((List.range its.length).filter
                (fun i => C (its.getD i 0, qs.getD i 0, ps.getD i 0))).map
                (fun i => (its.getD i 0, qs.getD i 0, ps.getD i 0)) := by
            apply List.map_congr_left
            intro i _
            simp [Function.comp]
          rw [this, ih qs ps hq' hp']
          simp [List.filter_cons, hC]
        · have hC' : C (a, q, p) = false := by
            simpa using hC
          simp only [List.getD_cons_zero, hC', Bool.false_eq_true, if_false]
          rw [hcomp, List.map_map]
          have : ((List.range its.length).filter
                (fun i => C (its.getD i 0, qs.getD i 0, ps.getD i 0))).map
                ((fun i => ((a :: its).getD i 0, (q :: qs).getD i 0,
                  (p :: ps).getD i 0)) ∘ Nat.succ)
              = ((List.range its.length).filter
                (fun i => C (its.getD i 0, qs.getD i 0, ps.getD i 0))).map
                (fun i => (its.getD i 0, qs.getD i 0, ps.getD i 0)) := by
            apply List.map_congr_left
            intro i _
            simp [Function.comp]
          rw [this, ih qs ps hq' hp']
          simp [List.filter_cons, hC']

/-! ## Row-view bridges for the index-based source functions -/

theorem rows_bridge (t : Transaction) (hq : t.quantities.length = t.items.length)
    (hp : t.profit.length = t.items.length) (C : Item × Int × Int → Bool) :
    ((idxRange t).filter (fun i => C (tripleAt t i))).map (fun i => tripleAt t i)
      = (rowsOf t).filter C :=
  range_filter_map_triple C t.items t.quantities t.profit hq hp

theorem sum_idx_rows (t : Transaction) (hq : t.quantities.length = t.items.length)
    (hp : t.profit.length = t.items.length) (C : Item × Int × Int → Bool) :
    (((idxRange t).filter (fun i => C (tripleAt t i))).map
        (fun i => utilAt t i)).sum
      = (((rowsOf t).filter C).map rowVal).sum := by
  have h2 : ((idxRange t).filter (fun i => C (tripleAt t i))).map
        (fun i => utilAt t i)
      = (((idxRange t).filter (fun i => C (tripleAt t i))).map
        (fun i => tripleAt t i)).map rowVal := by
    rw [List.map_map]; rfl
  rw [h2, rows_bridge t hq hp C]

theorem row_mem_facts {t : Transaction} {r : Item × Int × Int}
    (hr : r ∈ rowsOf t) : r.1 ∈ t.items ∧ r.2.1 ∈ t.quantities := by
  obtain ⟨a, b⟩ := r
  have h := List.of_mem_zip hr
  obtain ⟨b1, b2⟩ := b
  exact ⟨h.1, (List.of_mem_zip h.2).1⟩

theorem row_qty_pos {t : Transaction} (hwf : WFTransaction t)
    {r : Item × Int × Int} (hr : r ∈ rowsOf t) : 0 < r.2.1 :=
  hwf.2.2.2 r.2.1 (row_mem_facts hr).2

/-- Any member-restricted row sum is at most the positive-profit row sum
(per transaction, under positive quantities). -/
theorem rowsum_mem_le_rowsum_pos (t : Transaction) (hwf : WFTransaction t)
    (S : List Item) :
    (((rowsOf t).filter (fun r => decide (r.1 ∈ S))).map rowVal).sum
      ≤ (((rowsOf t).filter (fun r => decide (0 < r.2.2))).map rowVal).sum := by
  apply sum_filter_le_sum_filter
  · intro r _ _ _; exact le_refl _
  · intro r hr _ hQ
    have hq := row_qty_pos hwf hr
    have hp : ¬(0 < r.2.2) := by simpa using hQ
    have : r.2.2 ≤ 0 := by omega
    unfold rowVal
    exact mul_nonpos_of_nonpos_of_nonneg this (le_of_lt hq)
  · intro r hr _ hQ
    have hq := row_qty_pos hwf hr
    have hp : 0 < r.2.2 := by simpa using hQ
    unfold rowVal
    positivity

theorem rowsum_pos_nonneg (t : Transaction) (hwf : WFTransaction t) :
    0 ≤ (((rowsOf t).filter (fun r => decide (0 < r.2.2))).map rowVal).sum := by
  apply sum_filter_nonneg
  intro r hr hP
  have hq := row_qty_pos hwf hr
  have hp : 0 < r.2.2 := by simpa using hP
  unfold rowVal
  positivity

theorem utility_inner_rows (t : Transaction)
    (hq : t.quantities.length = t.items.length)
    (hp : t.profit.length = t.items.length) (S : List Item) :
    (((idxRange t).filter (fun i => decide (itemAt t i ∈ S))).map
        (fun i => utilAt t i)).sum
      = (((rowsOf t).filter (fun r => decide (r.1 ∈ S))).map rowVal).sum :=
  sum_idx_rows t hq hp (fun r => decide (r.1 ∈ S))

theorem pos_inner_rows (t : Transaction)
    (hq : t.quantities.length = t.items.length)
    (hp : t.profit.length = t.items.length) :
    (((idxRange t).filter (fun i => decide (0 < profitAt t i))).map
        (fun i => utilAt t i)).sum
      = (((rowsOf t).filter (fun r => decide (0 < r.2.2))).map rowVal).sum :=
  sum_idx_rows t hq hp (fun r => decide (0 < r.2.2))

theorem rru_rows (z : Item) (t : Transaction)
    (hq : t.quantities.length = t.items.length)
    (hp : t.profit.length = t.items.length) :
    calculate_rru z t
      = (((rowsOf t).filter
          (fun r => decide (r.1 ≠ z) && decide (0 < r.2.2))).map rowVal).sum :=
  sum_idx_rows t hq hp (fun r => decide (r.1 ≠ z) && decide (0 < r.2.2))

theorem calculate_rru_nonneg (z : Item) (t : Transaction)
    (hwf : WFTransaction t) : 0 ≤ calculate_rru z t := by
  rw [rru_rows z t hwf.1 hwf.2.1]
  apply sum_filter_nonneg
  intro r hr hP
  have hq := row_qty_pos hwf hr
  have hp : 0 < r.2.2 := by
    have h2 := (Bool.and_eq_true _ _).mp hP
    simpa using h2.2
  unfold rowVal
  positivity

/-- In a duplicate-free transaction containing `z`, the rows whose item is `z`
are exactly the single row at `indexOf z`. -/
theorem rows_filter_eq_z (z : Item) :
    ∀ (its : List Item) (qs ps : List Int), its.Nodup → z ∈ its →
      qs.length = its.length → ps.length = its.length →
      (its.zip (qs.zip ps)).filter (fun r => decide (r.1 = z))
        = [(z, qs.getD (its.indexOf z) 0, ps.getD (its.indexOf z) 0)] := by
  intro its
  induction its with
  | nil => intro qs ps _ hz; exact absurd hz (List.not_mem_nil z)
  | cons a its ih =>
    intro qs ps hnd hz hq hp
    match qs, hq with
    | q :: qs, hq =>
      match ps, hp with
      | p :: ps, hp =>
        have hq' : qs.length = its.length := by simpa using hq
        have hp' : ps.length = its.length := by simpa using hp
        rw [List.zip_cons_cons, List.zip_cons_cons, List.filter_cons]
        by_cases haz : a = z
        · subst haz
          have hnotin : a ∉ its := (List.nodup_cons.mp hnd).1
          have hempty : (its.zip (qs.zip ps)).filter
              (fun r => decide (r.1 = a)) = [] := by
            rw [List.filter_eq_nil_iff]
            intro r hr
            obtain ⟨x, b⟩ := r
            have hx := (List.of_mem_zip hr).1
            simp only [decide_eq_true_eq]
            intro hxa
            exact hnotin (hxa ▸ hx)
          simp [hempty, List.indexOf_cons_self]
        · have hz' : z ∈ its := by
            rcases List.mem_cons.mp hz with h | h
            · exact absurd h.symm haz
            · exact h
          have hidx : (a :: its).indexOf z = (its.indexOf z) + 1 :=
            List.indexOf_cons_ne its haz
          simp only [decide_eq_true_eq, haz, if_false]
          rw [ih qs ps (List.nodup_cons.mp hnd).2 hz' hq' hp', hidx]
          simp

/-- Splitting a member-restricted row sum over `X ++ [z]` (with `z ∉ X`)
into the `X` part plus the single `z` row. -/
theorem rowsum_append_single (t : Transaction) (hwf : WFTransaction t)
    (X : List Item) (z : Item) (hzt : z ∈ t.items) (hzX : z ∉ X) :
    (((rowsOf t).filter (fun r => decide (r.1 ∈ X ++ [z]))).map rowVal).sum
      = (((rowsOf t).filter (fun r => decide (r.1 ∈ X))).map rowVal).sum
        + profitAt t (t.items.indexOf z) * qtyAt t (t.items.indexOf z) := by
  have hfun : (fun r : Item × Int × Int => decide (r.1 ∈ X ++ [z]))
      = (fun r : Item × Int × Int => decide (r.1 ∈ X) || decide (r.1 = z)) := by
    funext r
    simp [List.mem_append]
  rw [hfun, sum_filter_or]
  · congr 1
    have hz := rows_filter_eq_z z t.items t.quantities t.profit
      hwf.2.2.1 hzt hwf.1 hwf.2.1
    unfold rowsOf at *
    rw [hz]
    simp [rowVal, profitAt, qtyAt]
  · intro r _ hand
    have h1 : r.1 ∈ X := by simpa using hand.1
    have h2 : r.1 = z := by simpa using hand.2
    exact hzX (h2 ▸ h1)

/-- Per-item soundness of RTWU against exact utility. -/
theorem calculate_utility_le_RTWU (db : List Transaction) (X : List Item)
    (i : Item) (hwf : WFDatabase db) (hi : i ∈ X) :
    calculate_utility db X ≤ calculate_RTWU db i := by
  unfold calculate_utility calculate_RTWU
  apply sum_filter_le_sum_filter
  · intro t ht _ _
    obtain ⟨hq, hp, _, _⟩ := hwf t ht
    rw [utility_inner_rows t hq hp X, pos_inner_rows t hq hp]
    exact rowsum_mem_le_rowsum_pos t (hwf t ht) X
  · intro t _ hP hQ
    exfalso
    have h1 : ∀ x ∈ X, x ∈ t.items := of_decide_eq_true hP
    have h2 : i ∉ t.items := of_decide_eq_false hQ
    exact h2 (h1 i hi)
  · intro t ht _ _
    obtain ⟨hq, hp, _, _⟩ := hwf t ht
    rw [pos_inner_rows t hq hp]
    exact rowsum_pos_nonneg t (hwf t ht)

/-- Soundness of RSU against the exact utility of the one-item extension. -/
theorem calculate_utility_le_RSU (db : List Transaction) (X : List Item)
    (z : Item) (hwf : WFDatabase db) (hz : z ∉ X) :
    calculate_utility db (X ++ [z]) ≤ calculate_RSU db X z := by
  unfold calculate_utility calculate_RSU
  have hfilt : (fun t : Transaction => decide (∀ x ∈ X ++ [z], x ∈ t.items))
      = (fun t : Transaction =>
          decide (∀ x ∈ X, x ∈ t.items) && decide (z ∈ t.items)) := by
    funext t
    have hiff : (∀ x ∈ X ++ [z], x ∈ t.items)
        ↔ ((∀ x ∈ X, x ∈ t.items) ∧ z ∈ t.items) := by
      simp only [List.mem_append, List.mem_singleton]
      constructor
      · intro h
        exact ⟨fun x hx => h x (Or.inl hx), h z (Or.inr rfl)⟩
      · intro h x hx
        rcases hx with hx | rfl
        · exact h.1 x hx
        · exact h.2
    rw [decide_eq_decide.mpr hiff, Bool.decide_and]
  rw [hfilt]
  apply sum_filter_le_sum_filter
  · intro t ht hP _
    have hwt := hwf t ht
    obtain ⟨hq, hp, -, -⟩ := hwf t ht
    have hzt : z ∈ t.items := by
      have h2 := (Bool.and_eq_true _ _).mp hP
      exact of_decide_eq_true h2.2
    rw [utility_inner_rows t hq hp (X ++ [z]),
      rowsum_append_single t hwt X z hzt hz,
      ← utility_inner_rows t hq hp X]
    have := calculate_rru_nonneg z t hwt
    linarith
  · intro t _ hP hQ
    rw [hP] at hQ
    cases hQ
  · intro t _ hP hQ
    rw [hQ] at hP
    cases hP

/-! ## tkn.py: PTWU (TKN.calculate_ptwu) -/

/-- Python dict update `d[item] = d.get(item, 0) + v`, preserving insertion
order of keys. -/
def updatePtwu : List (Item × Int) → Item → Int → List (Item × Int)
  | [], it, v => [(it, v)]
  | (a, w) :: rest, it, v =>
    if a = it then (a, w + v) :: rest else (a, w) :: updatePtwu rest it v

/-- `transaction_sum` of `TKN.calculate_ptwu`: positive-profit utility of a
transaction via `zip(quantities, profit)`. -/
def transaction_sum (t : Transaction) : Int :=
  (((t.quantities.zip t.profit).filter (fun qp => decide (0 < qp.2))).map
    (fun qp => qp.1 * qp.2)).sum

/-- One outer iteration of `TKN.calculate_ptwu`: every item occurrence in
`zip(items, quantities, profit)` adds the transaction sum. -/
def ptwu_step (acc : List (Item × Int)) (t : Transaction) : List (Item × Int) :=
  (rowsOf t).foldl (fun a r => updatePtwu a r.1 (transaction_sum t)) acc

/-- `TKN.calculate_ptwu`: the PTWU dictionary over the whole dataset. -/
def calculate_ptwu (db : List Transaction) : List (Item × Int) :=
  db.foldl ptwu_step []

/-- Python dict lookup with default `0` (`d.get(item, 0)`). -/
def lookupD : List (Item × Int) → Item → Int
  | [], _ => 0
  | (a, w) :: rest, j => if a = j then w else lookupD rest j

/-- PTWU of one item (`0` when the item never occurs, as in the source the
key would then be absent). -/
def ptwuOf (db : List Transaction) (i : Item) : Int :=
  lookupD (calculate_ptwu db) i

theorem lookupD_updatePtwu (acc : List (Item × Int)) (it j : Item) (v : Int) :
    lookupD (updatePtwu acc it v) j
      = lookupD acc j + (if it = j then v else 0) := by
  induction acc with
  | nil =>
    by_cases h : it = j <;> simp [updatePtwu, lookupD, h]
  | cons p rest ih =>
    obtain ⟨a, w⟩ := p
    unfold updatePtwu
    by_cases hai : a = it
    · subst hai
      by_cases haj : a = j <;> simp [lookupD, haj]
    · rw [if_neg hai]
      by_cases haj : a = j
      · subst haj
        show (if a = a then w else lookupD (updatePtwu rest it v) a)
            = (if a = a then w else lookupD rest a) + (if it = a then v else 0)
        rw [if_pos rfl, if_pos rfl, if_neg (fun hc : it = a => hai hc.symm)]
        ring
      · simp [lookupD, haj, ih]

theorem lookupD_fold_update (v : Int) (j : Item) :
    ∀ (rs : List (Item × Int × Int)) (acc : List (Item × Int)),
      lookupD (rs.foldl (fun a r => updatePtwu a r.1 v) acc) j
        = lookupD acc j + (rs.countP (fun r => decide (r.1 = j)) : Int) * v := by
  intro rs
  induction rs with
  | nil => intro acc; simp
  | cons r rs ih =>
    intro acc
    rw [List.foldl_cons, ih, lookupD_updatePtwu, List.countP_cons]
    by_cases h : r.1 = j <;> simp [h] <;> push_cast <;> ring

theorem lookupD_ptwu_step (acc : List (Item × Int)) (t : Transaction)
    (j : Item) :
    lookupD (ptwu_step acc t) j
      = lookupD acc j
        + ((rowsOf t).countP (fun r => decide (r.1 = j)) : Int)
          * transaction_sum t :=
  lookupD_fold_update (transaction_sum t) j (rowsOf t) acc

theorem ptwuOf_eq_sum (db : List Transaction) (j : Item) :
    ptwuOf db j
      = (db.map (fun t =>
          ((rowsOf t).countP (fun r => decide (r.1 = j)) : Int)
            * transaction_sum t)).sum := by
  unfold ptwuOf calculate_ptwu
  have h : ∀ (db' : List Transaction) (acc : List (Item × Int)),
      lookupD (db'.foldl ptwu_step acc) j
        = lookupD acc j
          + (db'.map (fun t =>
              ((rowsOf t).countP (fun r => decide (r.1 = j)) : Int)
                * transaction_sum t)).sum := by
    intro db'
    induction db' with
    | nil => intro acc; simp
    | cons t db' ih =>
      intro acc
      rw [List.foldl_cons, ih, lookupD_ptwu_step, List.map_cons,
        List.sum_cons]
      ring
  rw [h db []]
  simp [lookupD]

/-- Under equal sequence lengths, `transaction_sum` coincides with the
positive-profit row sum. -/
theorem transaction_sum_rows (t : Transaction)
    (hq : t.quantities.length = t.items.length)
    (hp : t.profit.length = t.items.length) :
    transaction_sum t
      = (((rowsOf t).filter (fun r => decide (0 < r.2.2))).map rowVal).sum := by
  unfold transaction_sum rowsOf
  have hlen : (t.quantities.zip t.profit).length ≤ t.items.length := by
    rw [List.length_zip, hq, hp]
    simp
  have hsnd : t.quantities.zip t.profit
      = (t.items.zip (t.quantities.zip t.profit)).map Prod.snd :=
    (List.map_snd_zip t.items (t.quantities.zip t.profit) hlen).symm
  conv_lhs => rw [hsnd, List.filter_map, List.map_map]
  have hfilt : List.filter
        ((fun qp : Int × Int => decide (0 < qp.2)) ∘ Prod.snd)
        (t.items.zip (t.quantities.zip t.profit))
      = List.filter (fun r : Item × Int × Int => decide (0 < r.2.2))
        (t.items.zip (t.quantities.zip t.profit)) := rfl
  rw [hfilt]
  have hmap : ∀ r ∈ List.filter
        (fun r : Item × Int × Int => decide (0 < r.2.2))
        (t.items.zip (t.quantities.zip t.profit)),
      ((fun qp : Int × Int => qp.1 * qp.2) ∘ Prod.snd) r = rowVal r := by
    intro r _
    obtain ⟨x, q, p⟩ := r
    show q * p = p * q
    exact mul_comm q p
  rw [List.map_congr_left hmap]

theorem one_le_countP_rows (t : Transaction)
    (hq : t.quantities.length = t.items.length)
    (hp : t.profit.length = t.items.length) (i : Item) (hi : i ∈ t.items) :
    1 ≤ (rowsOf t).countP (fun r => decide (r.1 = i)) := by
  have hlen : t.items.length ≤ (t.quantities.zip t.profit).length := by
    rw [List.length_zip, hq, hp]
    simp
  have hmem : i ∈ (rowsOf t).map Prod.fst := by
    unfold rowsOf
    rw [List.map_fst_zip _ _ hlen]
    exact hi
  obtain ⟨r, hr, hri⟩ := List.mem_map.mp hmem
  have : 0 < (rowsOf t).countP (fun r => decide (r.1 = i)) :=
    List.countP_pos_iff.mpr ⟨r, hr, by simp [hri]⟩
  omega

/-- Per-item soundness of PTWU against exact utility. -/
theorem calculate_utility_le_ptwu (db : List Transaction) (X : List Item)
    (i : Item) (hwf : WFDatabase db) (hi : i ∈ X) :
    calculate_utility db X ≤ ptwuOf db i := by
  rw [ptwuOf_eq_sum]
  have hA := calculate_utility_le_RTWU db X i hwf hi
  have hR : calculate_RTWU db i
      = ((db.filter (fun t => decide (i ∈ t.items))).map (fun t =>
          (((rowsOf t).filter (fun r => decide (0 < r.2.2))).map
            rowVal).sum)).sum := by
    unfold calculate_RTWU
    congr 1
    apply List.map_congr_left
    intro t ht
    obtain ⟨hq, hp, -, -⟩ := hwf t (List.mem_of_mem_filter ht)
    exact pos_inner_rows t hq hp
  have hfilter_all : db.filter (fun _ => true) = db :=
    List.filter_eq_self.mpr (fun _ _ => rfl)
  have hB : ((db.filter (fun t => decide (i ∈ t.items))).map (fun t =>
        (((rowsOf t).filter (fun r => decide (0 < r.2.2))).map
          rowVal).sum)).sum
      ≤ ((db.filter (fun _ => true)).map (fun t =>
          ((rowsOf t).countP (fun r => decide (r.1 = i)) : Int)
            * transaction_sum t)).sum := by
    apply sum_filter_le_sum_filter
    · intro t ht hP _
      obtain ⟨hq, hp, -, -⟩ := hwf t ht
      have hit : i ∈ t.items := of_decide_eq_true hP
      have hcount := one_le_countP_rows t hq hp i hit
      have hnn := rowsum_pos_nonneg t (hwf t ht)
      rw [transaction_sum_rows t hq hp]
      have hcast : (1 : Int) ≤ ((rowsOf t).countP
          (fun r => decide (r.1 = i)) : Int) := by
        exact_mod_cast hcount
      exact le_mul_of_one_le_left hnn hcast
    · intro t _ _ hQ
      simp at hQ
    · intro t ht _ _
      obtain ⟨hq, hp, -, -⟩ := hwf t ht
      rw [transaction_sum_rows t hq hp]
      have hnn := rowsum_pos_nonneg t (hwf t ht)
      have : (0 : Int) ≤ ((rowsOf t).countP
          (fun r => decide (r.1 = i)) : Int) := by positivity
      exact mul_nonneg this hnn
  rw [hfilter_all] at hB
  calc calculate_utility db X ≤ calculate_RTWU db i := hA
    _ = _ := hR
    _ ≤ _ := hB

/-! ## Claim C1 -/

/-- Two-transaction database: T1 = item 0 with quantity 1 and profit -1,
T2 = items 0,1 with quantities 1,1 and profits 1,1. -/
def dbC1 : List Transaction :=
  [⟨1, [0], [1], [-1]⟩, ⟨2, [0, 1], [1, 1], [1, 1]⟩]

/-- C1 counterexample: the claim asserts `RSU(X, z) ≥ exactUtility(Y)` for
every superset `Y ⊇ X ∪ {z}`.  On `dbC1` (well formed) with `X = ∅`,
`z = 0` and `Y = {0, 1} ⊇ {0}` the code computes `RSU(∅, 0) = 1` but
`exactUtility({0, 1}) = 2`, so the bound undercounts a strict superset. -/
theorem C1_rsu_superset_counterexample :
    WFDatabase dbC1 ∧ (0 : Item) ∈ ([0, 1] : List Item) ∧
      calculate_RSU dbC1 [] 0 < calculate_utility dbC1 [0, 1] := by
  decide

/-- C1 (amended): for every well-formed database, the PTWU and RTWU of every
item `i ∈ X` are at least `exactUtility(X)`, and `RSU(X, z)` is at least
`exactUtility(X ∪ {z})` (the one-item extension itself, not arbitrary
supersets). -/
theorem C1_bounds_ge_exact_utility (db : List Transaction) (X : List Item)
    (z : Item) (hwf : WFDatabase db) (hz : z ∉ X) :
    (∀ i ∈ X, calculate_utility db X ≤ calculate_RTWU db i
        ∧ calculate_utility db X ≤ ptwuOf db i)
      ∧ calculate_utility db (X ++ [z]) ≤ calculate_RSU db X z :=
  ⟨fun i hi => ⟨calculate_utility_le_RTWU db X i hwf hi,
      calculate_utility_le_ptwu db X i hwf hi⟩,
    calculate_utility_le_RSU db X z hwf hz⟩

theorem C1_bounds_ge_exact_utility_witness :
    (∀ i ∈ ([0] : List Item),
        calculate_utility dbC1 [0] ≤ calculate_RTWU dbC1 i
          ∧ calculate_utility dbC1 [0] ≤ ptwuOf dbC1 i)
      ∧ calculate_utility dbC1 ([0] ++ [1]) ≤ calculate_RSU dbC1 [0] 1 :=
  C1_bounds_ge_exact_utility dbC1 [0] 1 (by decide) (by decide)

/-! ## Claim C4: the projected database -/

theorem getD_mem_of_lt {l : List Item} {i : Nat} (h : i < l.length) :
    l.getD i 0 ∈ l := by
  rw [List.getD_eq_getElem?_getD, List.getElem?_eq_getElem h]
  exact List.getElem_mem h

/-- The row view of a projected transaction is the row filter of the
original transaction (under equal sequence lengths). -/
theorem rowsOf_project (t : Transaction)
    (hq : t.quantities.length = t.items.length)
    (hp : t.profit.length = t.items.length) (X : List Item) :
    rowsOf (project_transaction t X)
      = (rowsOf t).filter (fun r => decide (r.1 ∉ X)) := by
  show (((idxRange t).filter (fun i => decide (itemAt t i ∉ X))).map
      (fun i => itemAt t i)).zip
      ((((idxRange t).filter (fun i => decide (itemAt t i ∉ X))).map
        (fun i => qtyAt t i)).zip
       (((idxRange t).filter (fun i => decide (itemAt t i ∉ X))).map
        (fun i => profitAt t i)))
    = (rowsOf t).filter (fun r => decide (r.1 ∉ X))
  rw [List.zip_map', List.zip_map']
  exact rows_bridge t hq hp (fun r => decide (r.1 ∉ X))

theorem project_len_q (t : Transaction) (X : List Item) :
    (project_transaction t X).quantities.length
      = (project_transaction t X).items.length := by
  unfold project_transaction
  simp

theorem project_len_p (t : Transaction) (X : List Item) :
    (project_transaction t X).profit.length
      = (project_transaction t X).items.length := by
  unfold project_transaction
  simp

/-- Membership in the item sequence of a projected transaction. -/
theorem mem_project_items (t : Transaction) (X : List Item) (y : Item) :
    y ∈ (project_transaction t X).items ↔ (y ∈ t.items ∧ y ∉ X) := by
  show y ∈ ((idxRange t).filter (fun i => decide (itemAt t i ∉ X))).map
      (fun i => itemAt t i) ↔ _
  rw [List.mem_map]
  constructor
  · rintro ⟨i, hi, rfl⟩
    have hmem := List.mem_filter.mp hi
    have hrange : i < t.items.length := List.mem_range.mp hmem.1
    have hnot : itemAt t i ∉ X := of_decide_eq_true hmem.2
    exact ⟨getD_mem_of_lt hrange, hnot⟩
  · rintro ⟨hy, hyX⟩
    obtain ⟨i, hilt, hie⟩ := List.mem_iff_getElem.mp hy
    have hgd : itemAt t i = y := by
      unfold itemAt
      rw [List.getD_eq_getElem?_getD, List.getElem?_eq_getElem hilt]
      exact hie
    refine ⟨i, List.mem_filter.mpr ⟨List.mem_range.mpr hilt, ?_⟩, hgd⟩
    rw [hgd]
    exact decide_eq_true hyX

/-- C4 counterexample database: a single transaction with items 0,1,
quantities 1,1, profits 1,1. -/
def dbC4 : List Transaction := [⟨1, [0, 1], [1, 1], [1, 1]⟩]

/-- C4 counterexample: the claim says `exactUtility(X ∪ {z})` computed via
the projected database built at `X` equals the one computed from the
original database.  The source strips the members of `X` from the projected
transactions, so on `dbC4` with `X = {0}`, `z = 1` the projected database
contains no transaction containing `0`, and the utility of `{0, 1}`
computed against it is `0`, not `2`. -/
theorem C4_projection_counterexample :
    WFDatabase dbC4 ∧
      calculate_utility (create_projected_database dbC4 [0]) [0, 1]
        ≠ calculate_utility dbC4 [0, 1] := by
  decide

/-- C4 (amended): for every well-formed database, itemset `X` and extension
itemset `Y` disjoint from `X`, the utility of the extension items computed
against the projected database built at `X` equals their utility computed
against the original database restricted to the transactions containing
`X` — the incremental-search equivalence the projection actually provides. -/
theorem C4_projected_utility_eq (db : List Transaction) (X Y : List Item)
    (hwf : WFDatabase db) (hdisj : ∀ y ∈ Y, y ∉ X) :
    calculate_utility (create_projected_database db X) Y
      = calculate_utility
          (db.filter (fun t => decide (∀ x ∈ X, x ∈ t.items))) Y := by
  unfold calculate_utility create_projected_database
  rw [List.filter_map, List.map_map]
  have h1 : List.filter
        ((fun t : Transaction => decide (∀ y ∈ Y, y ∈ t.items))
          ∘ (fun t => project_transaction t X))
        (db.filter (fun t => decide (∀ x ∈ X, x ∈ t.items)))
      = List.filter (fun t : Transaction => decide (∀ y ∈ Y, y ∈ t.items))
        (db.filter (fun t => decide (∀ x ∈ X, x ∈ t.items))) := by
    apply List.filter_congr
    intro t _
    show decide (∀ y ∈ Y, y ∈ (project_transaction t X).items)
        = decide (∀ y ∈ Y, y ∈ t.items)
    apply decide_eq_decide.mpr
    constructor
    · intro h y hy
      exact ((mem_project_items t X y).mp (h y hy)).1
    · intro h y hy
      exact (mem_project_items t X y).mpr ⟨h y hy, hdisj y hy⟩
  rw [h1]
  apply congrArg List.sum
  apply List.map_congr_left
  intro t ht
  have htdb : t ∈ db :=
    List.mem_of_mem_filter (List.mem_of_mem_filter ht)
  obtain ⟨hq, hp, -, -⟩ := hwf t htdb
  show (((idxRange (project_transaction t X)).filter
      (fun i => decide (itemAt (project_transaction t X) i ∈ Y))).map
      (fun i => utilAt (project_transaction t X) i)).sum
    = (((idxRange t).filter (fun i => decide (itemAt t i ∈ Y))).map
      (fun i => utilAt t i)).sum
  rw [utility_inner_rows (project_transaction t X) (project_len_q t X)
    (project_len_p t X) Y,
    rowsOf_project t hq hp X, List.filter_filter]
  rw [List.filter_congr (q := fun r : Item × Int × Int => decide (r.1 ∈ Y))
    ?hc]
  · exact (utility_inner_rows t hq hp Y).symm
  case hc =>
    intro r hr
    by_cases hY : r.1 ∈ Y
    · have hX : r.1 ∉ X := hdisj r.1 hY
      simp [hY, hX]
    · simp [hY]

theorem C4_projected_utility_eq_witness :
    calculate_utility (create_projected_database dbC4 [0]) [1]
      = calculate_utility
          (dbC4.filter
            (fun t => decide (∀ x ∈ ([0] : List Item), x ∈ t.items))) [1] :=
  C4_projected_utility_eq dbC4 [0] [1] (by decide) (by decide)

/-! ## ehmun.py: item classifier (EMHUNAlgorithm.classify_items) -/

/-- The sign set `item_signs[item]` of the classifier: which of the signs
`1`, `-1`, `0` have been added so far. -/
structure SignSet where
  hasPos : Bool
  hasNeg : Bool
  hasZero : Bool
deriving DecidableEq, Repr

/-- `item_signs[item].add(1 if profit > 0 else (-1 if profit < 0 else 0))`. -/
def signInsert (s : SignSet) (v : Int) : SignSet :=
  if 0 < v then { s with hasPos := true }
  else if v < 0 then { s with hasNeg := true }
  else { s with hasZero := true }

/-- Python dict update for the sign sets, preserving key insertion order:
a missing key starts from the empty sign set. -/
def updateSigns : List (Item × SignSet) → Item → Int → List (Item × SignSet)
  | [], it, v => [(it, signInsert ⟨false, false, false⟩ v)]
  | (a, s) :: rest, it, v =>
    if a = it then (a, signInsert s v) :: rest
    else (a, s) :: updateSigns rest it v

/-- One transaction of the sign-collection loop of
`EMHUNAlgorithm.classify_items`. -/
def signs_step (acc : List (Item × SignSet)) (t : Transaction) :
    List (Item × SignSet) :=
  (idxRange t).foldl (fun a j => updateSigns a (itemAt t j) (utilAt t j)) acc

/-- The `item_signs` dictionary after the scan of the whole database. -/
def item_signs (db : List Transaction) : List (Item × SignSet) :=
  db.foldl signs_step []

/-- `EMHUNAlgorithm.classify_items`: `(rho, delta, eta)` — sign set exactly
`{1}`, exactly `{1, -1}`, exactly `{-1}` respectively. -/
def classify_items (db : List Transaction) :
    List Item × List Item × List Item :=
  let signs := item_signs db
  ((signs.filter (fun p => decide (p.2 = ⟨true, false, false⟩))).map (·.1),
   (signs.filter (fun p => decide (p.2 = ⟨true, true, false⟩))).map (·.1),
   (signs.filter (fun p => decide (p.2 = ⟨false, true, false⟩))).map (·.1))

/-- The per-occurrence utilities of item `i` across the database, in scan
order (the values whose signs the classifier accumulates). -/
def occUtils (db : List Transaction) (i : Item) : List Int :=
  (db.map (fun t => ((idxRange t).filter
    (fun j => decide (itemAt t j = i))).map (fun j => utilAt t j))).flatten

def lookupSigns : List (Item × SignSet) → Item → Option SignSet
  | [], _ => none
  | (a, s) :: rest, i => if a = i then some s else lookupSigns rest i

/-- Folding `signInsert` over a list of utilities, starting from an optional
current sign set (`none` = key absent). -/
def mergeSigns (o : Option SignSet) (us : List Int) : Option SignSet :=
  us.foldl (fun o u => some (signInsert (o.getD ⟨false, false, false⟩) u)) o

/-- Or-ing the sign flags of a utility list onto a sign set. -/
def orFlags (s : SignSet) (us : List Int) : SignSet :=
  ⟨s.hasPos || us.any (fun u => decide (0 < u)),
   s.hasNeg || us.any (fun u => decide (u < 0)),
   s.hasZero || us.any (fun u => decide (u = 0))⟩

theorem signInsert_eq_orFlags (s : SignSet) (v : Int) :
    signInsert s v = orFlags s [v] := by
  unfold signInsert orFlags
  by_cases h1 : 0 < v
  · have h2 : ¬v < 0 := by omega
    have h3 : ¬v = 0 := by omega
    simp [h1, h2, h3]
  · by_cases h2 : v < 0
    · have h3 : ¬v = 0 := by omega
      simp [h1, h2, h3]
    · have h3 : v = 0 := by omega
      simp [h1, h2, h3]

theorem orFlags_cons (s : SignSet) (u : Int) (us : List Int) :
    orFlags (orFlags s [u]) us = orFlags s (u :: us) := by
  unfold orFlags
  simp [Bool.or_assoc]

theorem mergeSigns_some (us : List Int) :
    ∀ s : SignSet, mergeSigns (some s) us = some (orFlags s us) := by
  induction us with
  | nil =>
    intro s
    unfold mergeSigns orFlags
    simp
  | cons u us ih =>
    intro s
    show mergeSigns (some (signInsert s u)) us = _
    rw [ih (signInsert s u), signInsert_eq_orFlags, orFlags_cons]

theorem mergeSigns_append (o : Option SignSet) (us vs : List Int) :
    mergeSigns (mergeSigns o us) vs = mergeSigns o (us ++ vs) := by
  unfold mergeSigns
  rw [List.foldl_append]

theorem lookupSigns_update (acc : List (Item × SignSet)) (it i : Item)
    (v : Int) :
    lookupSigns (updateSigns acc it v) i
      = if it = i
        then some (signInsert ((lookupSigns acc i).getD ⟨false, false, false⟩) v)
        else lookupSigns acc i := by
  induction acc with
  | nil =>
    by_cases h : it = i
    · subst h
      simp [updateSigns, lookupSigns]
    · simp [updateSigns, lookupSigns, h]
  | cons p rest ih =>
    obtain ⟨a, s⟩ := p
    unfold updateSigns
    by_cases hai : a = it
    · subst hai
      by_cases hi : a = i
      · subst hi
        simp [lookupSigns]
      · simp [lookupSigns, hi]
    · rw [if_neg hai]
      by_cases hi : a = i
      · subst hi
        have hit : ¬it = a := fun hc => hai hc.symm
        simp [lookupSigns, hit]
      · simp [lookupSigns, hi, ih]

theorem lookupSigns_idxfold (t : Transaction) (i : Item) :
    ∀ (idxs : List Nat) (acc : List (Item × SignSet)),
      lookupSigns
        (idxs.foldl (fun a j => updateSigns a (itemAt t j) (utilAt t j)) acc) i
        = mergeSigns (lookupSigns acc i)
            ((idxs.filter (fun j => decide (itemAt t j = i))).map
              (fun j => utilAt t j)) := by
  intro idxs
  induction idxs with
  | nil => intro acc; simp [mergeSigns]
  | cons j idxs ih =>
    intro acc
    rw [List.foldl_cons, ih, lookupSigns_update]
    by_cases h : itemAt t j = i
    · rw [if_pos h]
      have hf : List.filter (fun j => decide (itemAt t j = i)) (j :: idxs)
          = j :: List.filter (fun j => decide (itemAt t j = i)) idxs := by
        simp [List.filter_cons, h]
      rw [hf, List.map_cons]
      rfl
    · rw [if_neg h]
      have hf : List.filter (fun j => decide (itemAt t j = i)) (j :: idxs)
          = List.filter (fun j => decide (itemAt t j = i)) idxs := by
        simp [List.filter_cons, h]
      rw [hf]

theorem lookupSigns_item_signs (db : List Transaction) (i : Item) :
    lookupSigns (item_signs db) i = mergeSigns none (occUtils db i) := by
  unfold item_signs
  have h : ∀ (db' : List Transaction) (acc : List (Item × SignSet)),
      lookupSigns (db'.foldl signs_step acc) i
        = mergeSigns (lookupSigns acc i) (occUtils db' i) := by
    intro db'
    induction db' with
    | nil => intro acc; simp [occUtils, mergeSigns]
    | cons t db' ih =>
      intro acc
      rw [List.foldl_cons, ih]
      show _ = mergeSigns (lookupSigns acc i)
        (((idxRange t).filter (fun j => decide (itemAt t j = i))).map
            (fun j => utilAt t j)
          ++ occUtils db' i)
      rw [← mergeSigns_append]
      congr 1
      exact lookupSigns_idxfold t i (idxRange t) acc
  rw [h db []]
  rfl

def signKeys (d : List (Item × SignSet)) : List Item := d.map (·.1)

theorem signKeys_update (acc : List (Item × SignSet)) (it : Item) (v : Int) :
    signKeys (updateSigns acc it v)
      = if it ∈ signKeys acc then signKeys acc else signKeys acc ++ [it] := by
  induction acc with
  | nil => simp [updateSigns, signKeys]
  | cons p rest ih =>
    obtain ⟨a, s⟩ := p
    unfold updateSigns
    by_cases hai : a = it
    · subst hai
      simp [signKeys]
    · rw [if_neg hai]
      have hne : ¬it = a := fun hc => hai hc.symm
      have hkeys : signKeys ((a, s) :: updateSigns rest it v)
          = a :: signKeys (updateSigns rest it v) := rfl
      rw [hkeys, ih]
      by_cases hmem : it ∈ signKeys rest
      · rw [if_pos hmem,
          if_pos (show it ∈ signKeys ((a, s) :: rest) from
            List.mem_cons_of_mem _ hmem)]
        rfl
      · have hnotc : it ∉ signKeys ((a, s) :: rest) := by
          intro hc
          rcases List.mem_cons.mp hc with hc | hc
          · exact hne hc
          · exact hmem hc
        rw [if_neg hmem, if_neg hnotc]
        rfl

theorem signKeys_update_nodup (acc : List (Item × SignSet)) (it : Item)
    (v : Int) (h : (signKeys acc).Nodup) :
    (signKeys (updateSigns acc it v)).Nodup := by
  rw [signKeys_update]
  by_cases hmem : it ∈ signKeys acc
  · rw [if_pos hmem]; exact h
  · rw [if_neg hmem]
    rw [List.nodup_append]
    exact ⟨h, List.nodup_singleton it, by simpa using hmem⟩

theorem signKeys_fold_nodup (t : Transaction) :
    ∀ (idxs : List Nat) (acc : List (Item × SignSet)),
      (signKeys acc).Nodup →
      (signKeys (idxs.foldl
        (fun a j => updateSigns a (itemAt t j) (utilAt t j)) acc)).Nodup := by
  intro idxs
  induction idxs with
  | nil => intro acc h; exact h
  | cons j idxs ih =>
    intro acc h
    exact ih _ (signKeys_update_nodup acc (itemAt t j) (utilAt t j) h)

theorem item_signs_keys_nodup (db : List Transaction) :
    (signKeys (item_signs db)).Nodup := by
  unfold item_signs
  have h : ∀ (db' : List Transaction) (acc : List (Item × SignSet)),
      (signKeys acc).Nodup → (signKeys (db'.foldl signs_step acc)).Nodup := by
    intro db'
    induction db' with
    | nil => intro acc h; exact h
    | cons t db' ih =>
      intro acc h
      exact ih _ (signKeys_fold_nodup t (idxRange t) acc h)
  exact h db [] (by simp [signKeys])

theorem mem_iff_lookupSigns (d : List (Item × SignSet))
    (hnd : (signKeys d).Nodup) (i : Item) (s : SignSet) :
    (i, s) ∈ d ↔ lookupSigns d i = some s := by
  induction d with
  | nil => simp [lookupSigns]
  | cons p rest ih =>
    obtain ⟨a, w⟩ := p
    have hnd' : (signKeys rest).Nodup := (List.nodup_cons.mp hnd).2
    have hnotin : a ∉ signKeys rest := (List.nodup_cons.mp hnd).1
    by_cases hai : a = i
    · subst hai
      constructor
      · intro h
        rcases List.mem_cons.mp h with h | h
        · have hsw : s = w := congrArg Prod.snd h
          subst hsw
          show (if a = a then some s else lookupSigns rest a) = some s
          rw [if_pos rfl]
        · exact absurd (List.mem_map.mpr ⟨(a, s), h, rfl⟩) hnotin
      · intro h
        have h' : (if a = a then some w else lookupSigns rest a) = some s := h
        rw [if_pos rfl] at h'
        have hws := Option.some_inj.mp h'
        exact List.mem_cons.mpr (Or.inl (by rw [hws]))
    · constructor
      · intro h
        rcases List.mem_cons.mp h with h | h
        · exact absurd (congrArg Prod.fst h) (fun hc => hai hc.symm)
        · show (if a = i then some w else lookupSigns rest i) = some s
          rw [if_neg hai]
          exact (ih hnd').mp h
      · intro h
        have h' : (if a = i then some w else lookupSigns rest i) = some s := h
        rw [if_neg hai] at h'
        exact List.mem_cons.mpr (Or.inr ((ih hnd').mpr h'))

theorem mem_class_iff (db : List Transaction) (i : Item) (c : SignSet) :
    i ∈ ((item_signs db).filter (fun p => decide (p.2 = c))).map (·.1)
      ↔ lookupSigns (item_signs db) i = some c := by
  rw [List.mem_map]
  constructor
  · rintro ⟨⟨a, s⟩, hmem, rfl⟩
    have h2 := List.mem_filter.mp hmem
    have hc : s = c := of_decide_eq_true h2.2
    subst hc
    exact (mem_iff_lookupSigns _ (item_signs_keys_nodup db) _ _).mp h2.1
  · intro h
    refine ⟨(i, c), List.mem_filter.mpr ⟨?_, by simp⟩, rfl⟩
    exact (mem_iff_lookupSigns _ (item_signs_keys_nodup db) _ _).mpr h

theorem lookupSigns_eq_some_iff (db : List Transaction) (i : Item)
    (c : SignSet) :
    lookupSigns (item_signs db) i = some c
      ↔ (occUtils db i ≠ []
          ∧ orFlags ⟨false, false, false⟩ (occUtils db i) = c) := by
  rw [lookupSigns_item_signs]
  cases hocc : occUtils db i with
  | nil => simp [mergeSigns]
  | cons u us =>
    have hm : mergeSigns none (u :: us)
        = some (orFlags ⟨false, false, false⟩ (u :: us)) := by
      show mergeSigns (some (signInsert ⟨false, false, false⟩ u)) us = _
      rw [mergeSigns_some, signInsert_eq_orFlags, orFlags_cons]
    rw [hm]
    simp

theorem orFlags_base (us : List Int) :
    orFlags ⟨false, false, false⟩ us
      = ⟨us.any (fun u => decide (0 < u)), us.any (fun u => decide (u < 0)),
         us.any (fun u => decide (u = 0))⟩ := by
  unfold orFlags
  simp

/-! ## Claim C5 -/

/-- One transaction whose only item has per-occurrence utility exactly 0. -/
def dbC5 : List Transaction := [⟨1, [0], [1], [0]⟩]

/-- C5 counterexample: the claim says the classifier covers every item and
places an everywhere-zero-utility item in the negative class.  On `dbC5`
(well formed) the item `0` appears in the database with utility `0`, yet
`classify_items` returns three empty classes — the item is in no class at
all (the sign set `{0}` matches none of `{1}`, `{1,-1}`, `{-1}`). -/
theorem C5_zero_utility_counterexample :
    WFDatabase dbC5 ∧ (∃ t ∈ dbC5, (0 : Item) ∈ t.items) ∧
      classify_items dbC5 = ([], [], []) := by
  decide

/-- C5 (amended): the three classes are pairwise disjoint, and they
characterize as: positive iff every occurrence has strictly positive
utility, mixed iff there are both strictly positive and strictly negative
occurrences and none with utility zero, negative iff every occurrence has
strictly negative utility.  An item with any zero-utility occurrence — in
particular one with utility exactly zero everywhere — belongs to no class
(it is not placed in the negative class). -/
theorem C5_classifier_characterization (db : List Transaction) (i : Item) :
    (i ∈ (classify_items db).1 ↔
        (occUtils db i ≠ [] ∧ ∀ u ∈ occUtils db i, 0 < u))
    ∧ (i ∈ (classify_items db).2.1 ↔
        ((∃ u ∈ occUtils db i, 0 < u) ∧ (∃ u ∈ occUtils db i, u < 0)
          ∧ ∀ u ∈ occUtils db i, u ≠ 0))
    ∧ (i ∈ (classify_items db).2.2 ↔
        (occUtils db i ≠ [] ∧ ∀ u ∈ occUtils db i, u < 0))
    ∧ (¬(i ∈ (classify_items db).1 ∧ i ∈ (classify_items db).2.1))
    ∧ (¬(i ∈ (classify_items db).1 ∧ i ∈ (classify_items db).2.2))
    ∧ (¬(i ∈ (classify_items db).2.1 ∧ i ∈ (classify_items db).2.2))
    ∧ ((occUtils db i ≠ [] ∧ ∀ u ∈ occUtils db i, u = 0) →
        i ∉ (classify_items db).1 ∧ i ∉ (classify_items db).2.1
          ∧ i ∉ (classify_items db).2.2) := by
  have hrho : i ∈ (classify_items db).1
      ↔ lookupSigns (item_signs db) i = some ⟨true, false, false⟩ :=
    mem_class_iff db i ⟨true, false, false⟩
  have hdelta : i ∈ (classify_items db).2.1
      ↔ lookupSigns (item_signs db) i = some ⟨true, true, false⟩ :=
    mem_class_iff db i ⟨true, true, false⟩
  have heta : i ∈ (classify_items db).2.2
      ↔ lookupSigns (item_signs db) i = some ⟨false, true, false⟩ :=
    mem_class_iff db i ⟨false, true, false⟩
  have hflags : ∀ c : SignSet, (orFlags ⟨false, false, false⟩
        (occUtils db i) = c)
      ↔ ((occUtils db i).any (fun u => decide (0 < u)) = c.hasPos
        ∧ (occUtils db i).any (fun u => decide (u < 0)) = c.hasNeg
        ∧ (occUtils db i).any (fun u => decide (u = 0)) = c.hasZero) := by
    intro c
    rw [orFlags_base]
    obtain ⟨p, n, z⟩ := c
    constructor
    · intro h
      have h' := SignSet.mk.injEq _ _ _ _ _ _ |>.mp h
      exact ⟨h'.1, h'.2.1, h'.2.2⟩
    · intro ⟨h1, h2, h3⟩
      rw [h1, h2, h3]
  set occ := occUtils db i with hoccdef
  have hrho' : i ∈ (classify_items db).1
      ↔ (occ ≠ [] ∧ ∀ u ∈ occ, 0 < u) := by
    rw [hrho, lookupSigns_eq_some_iff, hflags]
    constructor
    · intro ⟨hne, h1, h2, h3⟩
      refine ⟨hne, fun u hu => ?_⟩
      have hn : ¬(u < 0) := by
        have := List.any_eq_false.mp h2 u hu
        simpa using this
      have hz : ¬(u = 0) := by
        have := List.any_eq_false.mp h3 u hu
        simpa using this
      omega
    · intro ⟨hne, hall⟩
      obtain ⟨u, hu⟩ := List.exists_mem_of_ne_nil occ hne
      refine ⟨hne, ?_, ?_, ?_⟩
      · exact List.any_eq_true.mpr ⟨u, hu, by simpa using hall u hu⟩
      · exact List.any_eq_false.mpr
          (fun v hv => by have := hall v hv; simp; omega)
      · exact List.any_eq_false.mpr
          (fun v hv => by have := hall v hv; simp; omega)
  have hdelta' : i ∈ (classify_items db).2.1
      ↔ ((∃ u ∈ occ, 0 < u) ∧ (∃ u ∈ occ, u < 0) ∧ ∀ u ∈ occ, u ≠ 0) := by
    rw [hdelta, lookupSigns_eq_some_iff, hflags]
    constructor
    · intro ⟨hne, h1, h2, h3⟩
      refine ⟨?_, ?_, ?_⟩
      · obtain ⟨u, hu, hp⟩ := List.any_eq_true.mp h1
        exact ⟨u, hu, by simpa using hp⟩
      · obtain ⟨u, hu, hp⟩ := List.any_eq_true.mp h2
        exact ⟨u, hu, by simpa using hp⟩
      · intro u hu
        have := List.any_eq_false.mp h3 u hu
        simpa using this
    · intro ⟨⟨u1, hu1, hp1⟩, ⟨u2, hu2, hp2⟩, hz⟩
      refine ⟨fun hc => List.not_mem_nil u1 ((hoccdef.trans hc) ▸ hu1),
        ?_, ?_, ?_⟩
      · exact List.any_eq_true.mpr ⟨u1, hu1, by simpa using hp1⟩
      · exact List.any_eq_true.mpr ⟨u2, hu2, by simpa using hp2⟩
      · exact List.any_eq_false.mpr
          (fun v hv => by have := hz v hv; simpa using this)
  have heta' : i ∈ (classify_items db).2.2
      ↔ (occ ≠ [] ∧ ∀ u ∈ occ, u < 0) := by
    rw [heta, lookupSigns_eq_some_iff, hflags]
    constructor
    · intro ⟨hne, h1, h2, h3⟩
      refine ⟨hne, fun u hu => ?_⟩
      have hp : ¬(0 < u) := by
        have := List.any_eq_false.mp h1 u hu
        simpa using this
      have hz : ¬(u = 0) := by
        have := List.any_eq_false.mp h3 u hu
        simpa using this
      omega
    · intro ⟨hne, hall⟩
      obtain ⟨u, hu⟩ := List.exists_mem_of_ne_nil occ hne
      refine ⟨hne, ?_, ?_, ?_⟩
      · exact List.any_eq_false.mpr
          (fun v hv => by have := hall v hv; simp; omega)
      · exact List.any_eq_true.mpr ⟨u, hu, by simpa using hall u hu⟩
      · exact List.any_eq_false.mpr
          (fun v hv => by have := hall v hv; simp; omega)
  refine ⟨hrho', hdelta', heta', ?_, ?_, ?_, ?_⟩
  · intro ⟨h1, h2⟩
    rw [hrho] at h1
    rw [hdelta] at h2
    rw [h1] at h2
    exact absurd (Option.some_inj.mp h2) (by decide)
  · intro ⟨h1, h2⟩
    rw [hrho] at h1
    rw [heta] at h2
    rw [h1] at h2
    exact absurd (Option.some_inj.mp h2) (by decide)
  · intro ⟨h1, h2⟩
    rw [hdelta] at h1
    rw [heta] at h2
    rw [h1] at h2
    exact absurd (Option.some_inj.mp h2) (by decide)
  · intro ⟨hne, hzero⟩
    refine ⟨?_, ?_, ?_⟩
    · intro hc
      obtain ⟨-, hall⟩ := hrho'.mp hc
      obtain ⟨u, hu⟩ := List.exists_mem_of_ne_nil occ hne
      have := hall u hu
      have := hzero u hu
      omega
    · intro hc
      obtain ⟨⟨u, hu, hp⟩, -, -⟩ := hdelta'.mp hc
      have := hzero u hu
      omega
    · intro hc
      obtain ⟨-, hall⟩ := heta'.mp hc
      obtain ⟨u, hu⟩ := List.exists_mem_of_ne_nil occ hne
      have := hall u hu
      have := hzero u hu
      omega

/-! ## ehmin.py: the exhaustive strategy (EHMIN) -/

/-- Key collection of `EHMIN.load_external_utility`: first-appearance order
of the items of `zip(items, profit)` over the database. -/
def ehmin_load_keys (db : List Transaction) : List Item :=
  db.foldl (fun acc t =>
    (t.items.zip t.profit).foldl (fun acc ip =>
      if ip.1 ∈ acc then acc else acc ++ [ip.1]) acc) []

/-- Key collection of `EHMIN.prune_low_utility_items`: adds every item of
every transaction not yet present. -/
def ehmin_prune_keys (db : List Transaction) (acc : List Item) : List Item :=
  db.foldl (fun acc t =>
    t.items.foldl (fun acc i => if i ∈ acc then acc else acc ++ [i]) acc) acc

/-- The key list of `global_lists` when `EHMIN.mine_high_utility_patterns`
runs (the item universe, in insertion order). -/
def ehmin_items (db : List Transaction) : List Item :=
  ehmin_prune_keys db (ehmin_load_keys db)

/-- `EHMIN.calculate_pattern_utility`: for each transaction containing the
whole pattern, sum `quantities[i] * profit[i]` at the first index of each
pattern item. -/
def calculate_pattern_utility (db : List Transaction)
    (pattern : List Item) : Int :=
  ((db.filter (fun t => decide (∀ x ∈ pattern, x ∈ t.items))).map (fun t =>
    ((pattern.map (fun x => t.items.indexOf x)).map
      (fun i => qtyAt t i * profitAt t i)).sum)).sum

/-- `EHMIN.generate_combinations`. -/
def generate_combinations : List Item → Nat → List (List Item)
  | _, 0 => [[]]
  | [], _ + 1 => []
  | x :: xs, n + 1 =>
    (generate_combinations xs n).map (fun rest => x :: rest)
      ++ generate_combinations xs (n + 1)

/-- All combinations of every length from 1 to `items.length`, in the order
`EHMIN.mine_high_utility_patterns` enumerates them. -/
def ehmin_all_combos (items : List Item) : List (List Item) :=
  ((List.range items.length).map
    (fun l => generate_combinations items (l + 1))).flatten

/-- `EHMIN.mine_high_utility_patterns`: the results list before sorting
(the `processed_patterns` de-duplication set is threaded through). -/
def ehmin_mine (db : List Transaction) (min_util : Int) :
    List (List Item × Int) :=
  ((ehmin_all_combos (ehmin_items db)).foldl (fun acc combo =>
    if combo ∈ acc.1 then acc
    else
      (combo :: acc.1,
       if min_util ≤ calculate_pattern_utility db combo
       then acc.2 ++ [(combo, calculate_pattern_utility db combo)]
       else acc.2))
    ([], [])).2

/-- Python tuple comparison (`<=`) on item sequences. -/
def lexLe : List Item → List Item → Bool
  | [], _ => true
  | _ :: _, [] => false
  | x :: xs, y :: ys => decide (x < y) || (x == y && lexLe xs ys)

/-- The sort key of `EHMIN.run`: ascending `(-utility, pattern tuple)`. -/
def ehminKey (a b : List Item × Int) : Prop :=
  b.2 < a.2 ∨ (b.2 = a.2 ∧ lexLe a.1 b.1 = true)

instance : DecidableRel ehminKey := fun a b => by
  unfold ehminKey; infer_instance

/-- `EHMIN.run` (the algorithmic part): mine, then sort by descending
utility with ties by the pattern tuple. -/
def ehmin_run (db : List Transaction) (min_util : Int) :
    List (List Item × Int) :=
  (ehmin_mine db min_util).insertionSort ehminKey

/-! ## Claim C2: characterization of the exhaustive strategy -/

theorem mem_generate_combinations :
    ∀ (items : List Item) (n : Nat) (l : List Item),
      l ∈ generate_combinations items n ↔ (l.Sublist items ∧ l.length = n) := by
  intro items
  induction items with
  | nil =>
    intro n l
    cases n with
    | zero =>
      simp only [generate_combinations, List.mem_singleton]
      constructor
      · rintro rfl; exact ⟨List.Sublist.refl [], rfl⟩
      · rintro ⟨hs, hl⟩; exact List.length_eq_zero.mp hl
    | succ n =>
      simp only [generate_combinations, List.not_mem_nil, false_iff]
      rintro ⟨hs, hl⟩
      have := List.sublist_nil.mp hs
      subst this
      simp at hl
  | cons x xs ih =>
    intro n l
    cases n with
    | zero =>
      simp only [generate_combinations, List.mem_singleton]
      constructor
      · rintro rfl; exact ⟨List.nil_sublist _, rfl⟩
      · rintro ⟨hs, hl⟩; exact List.length_eq_zero.mp hl
    | succ n =>
      show l ∈ (generate_combinations xs n).map (fun rest => x :: rest)
          ++ generate_combinations xs (n + 1) ↔ _
      rw [List.mem_append, List.mem_map]
      constructor
      · rintro (⟨r, hr, rfl⟩ | h)
        · obtain ⟨hs, hl⟩ := (ih n r).mp hr
          exact ⟨List.Sublist.cons₂ x hs, by simp [hl]⟩
        · obtain ⟨hs, hl⟩ := (ih (n + 1) l).mp h
          exact ⟨hs.cons x, hl⟩
      · rintro ⟨hs, hl⟩
        rcases List.sublist_cons_iff.mp hs with h | ⟨r, rfl, hr⟩
        · exact Or.inr ((ih (n + 1) l).mpr ⟨h, hl⟩)
        · exact Or.inl ⟨r, (ih n r).mpr ⟨hr, by simpa using hl⟩, rfl⟩

theorem generate_combinations_nodup :
    ∀ (items : List Item), items.Nodup →
      ∀ (n : Nat), (generate_combinations items n).Nodup := by
  intro items
  induction items with
  | nil =>
    intro _ n
    cases n with
    | zero => simp [generate_combinations]
    | succ n => simp [generate_combinations]
  | cons x xs ih =>
    intro hnd n
    have hx : x ∉ xs := (List.nodup_cons.mp hnd).1
    have hnd' : xs.Nodup := (List.nodup_cons.mp hnd).2
    cases n with
    | zero => simp [generate_combinations]
    | succ n =>
      show ((generate_combinations xs n).map (fun rest => x :: rest)
          ++ generate_combinations xs (n + 1)).Nodup
      rw [List.nodup_append]
      refine ⟨?_, ih hnd' (n + 1), ?_⟩
      · exact (ih hnd' n).map (fun a b h => (List.cons.injEq _ _ _ _).mp h |>.2)
      · intro l hl hl'
        obtain ⟨r, hr, rfl⟩ := List.mem_map.mp hl
        obtain ⟨hs, -⟩ := (mem_generate_combinations xs (n + 1) (x :: r)).mp hl'
        exact hx (hs.subset (List.mem_cons_self x r))

theorem mem_ehmin_all_combos (items : List Item) (l : List Item) :
    l ∈ ehmin_all_combos items ↔ (l.Sublist items ∧ l ≠ []) := by
  unfold ehmin_all_combos
  rw [List.mem_flatten]
  constructor
  · rintro ⟨c, hc, hl⟩
    obtain ⟨n, hn, rfl⟩ := List.mem_map.mp hc
    obtain ⟨hs, hlen⟩ := (mem_generate_combinations items (n + 1) l).mp hl
    refine ⟨hs, ?_⟩
    intro hc'
    rw [hc'] at hlen
    simp at hlen
  · rintro ⟨hs, hne⟩
    have hlen : 1 ≤ l.length := by
      cases l with
      | nil => exact absurd rfl hne
      | cons a l => simp
    have hlt : l.length - 1 < items.length := by
      have := hs.length_le
      omega
    refine ⟨generate_combinations items (l.length - 1 + 1),
      List.mem_map.mpr ⟨l.length - 1, List.mem_range.mpr hlt, rfl⟩, ?_⟩
    exact (mem_generate_combinations items _ l).mpr ⟨hs, by omega⟩

theorem ehmin_all_combos_nodup (items : List Item) (hnd : items.Nodup) :
    (ehmin_all_combos items).Nodup := by
  unfold ehmin_all_combos
  rw [List.nodup_flatten]
  constructor
  · intro c hc
    obtain ⟨n, -, rfl⟩ := List.mem_map.mp hc
    exact generate_combinations_nodup items hnd (n + 1)
  · rw [List.pairwise_map]
    have : ∀ m n : Nat, m ≠ n →
        (generate_combinations items (m + 1)).Disjoint
          (generate_combinations items (n + 1)) := by
      intro m n hmn l hm hn
      obtain ⟨-, h1⟩ := (mem_generate_combinations items (m + 1) l).mp hm
      obtain ⟨-, h2⟩ := (mem_generate_combinations items (n + 1) l).mp hn
      omega
    exact List.Pairwise.imp_of_mem
      (fun {a b} _ _ hab => this a b hab)
      (List.nodup_range items.length)

/-- Two permutation-equal sublists of a duplicate-free list are equal. -/
theorem sublist_perm_eq :
    ∀ (u : List Item), u.Nodup → ∀ {a b : List Item},
      a.Sublist u → b.Sublist u → a.Perm b → a = b := by
  intro u
  induction u with
  | nil =>
    intro _ a b ha hb _
    rw [List.sublist_nil.mp ha, List.sublist_nil.mp hb]
  | cons x u ih =>
    intro hnd a b ha hb hab
    have hx : x ∉ u := (List.nodup_cons.mp hnd).1
    have hnd' : u.Nodup := (List.nodup_cons.mp hnd).2
    rcases List.sublist_cons_iff.mp ha with ha' | ⟨r, rfl, hr⟩
    · rcases List.sublist_cons_iff.mp hb with hb' | ⟨s, rfl, hs⟩
      · exact ih hnd' ha' hb' hab
      · exfalso
        have hxa : x ∈ a := hab.symm.subset (List.mem_cons_self x s)
        exact hx (ha'.subset hxa)
    · rcases List.sublist_cons_iff.mp hb with hb' | ⟨s, rfl, hs⟩
      · exfalso
        have hxb : x ∈ b := hab.subset (List.mem_cons_self x r)
        exact hx (hb'.subset hxb)
      · have := ih hnd' hr hs (hab.cons_inv)
        rw [this]

theorem ehmin_mine_fold_spec (db : List Transaction) (min_util : Int) :
    ∀ (cs : List (List Item)) (vis : List (List Item))
      (res : List (List Item × Int)),
      cs.Nodup → (∀ c ∈ cs, c ∉ vis) →
      (cs.foldl (fun acc combo =>
        if combo ∈ acc.1 then acc
        else
          (combo :: acc.1,
           if min_util ≤ calculate_pattern_utility db combo
           then acc.2 ++ [(combo, calculate_pattern_utility db combo)]
           else acc.2)) (vis, res)).2
      = res ++ ((cs.filter (fun c =>
          decide (min_util ≤ calculate_pattern_utility db c))).map
          (fun c => (c, calculate_pattern_utility db c))) := by
  intro cs
  induction cs with
  | nil => intro vis res _ _; simp
  | cons c cs ih =>
    intro vis res hnd hnew
    have hcnotvis : c ∉ vis := hnew c (List.mem_cons_self c cs)
    rw [List.foldl_cons, if_neg hcnotvis]
    have hnew' : ∀ c' ∈ cs, c' ∉ c :: vis := by
      intro c' hc' hmem
      rcases List.mem_cons.mp hmem with h | h
      · exact (List.nodup_cons.mp hnd).1 (h ▸ hc')
      · exact hnew c' (List.mem_cons_of_mem c hc') h
    rw [ih (c :: vis) _ (List.nodup_cons.mp hnd).2 hnew']
    by_cases hu : min_util ≤ calculate_pattern_utility db c
    · rw [if_pos hu, List.filter_cons,
        if_pos (by exact decide_eq_true hu), List.map_cons]
      simp
    · rw [if_neg hu, List.filter_cons]
      rw [if_neg (by simp [hu])]

theorem ehmin_mine_eq (db : List Transaction) (min_util : Int)
    (hnd : (ehmin_all_combos (ehmin_items db)).Nodup) :
    ehmin_mine db min_util
      = ((ehmin_all_combos (ehmin_items db)).filter (fun c =>
          decide (min_util ≤ calculate_pattern_utility db c))).map
          (fun c => (c, calculate_pattern_utility db c)) := by
  unfold ehmin_mine
  rw [ehmin_mine_fold_spec db min_util _ [] [] hnd (by simp)]
  simp

/-- Generic accumulator insertion: fold adding each key not yet present. -/
theorem insert_fold_nodup {β : Type} (key : β → Item) :
    ∀ (xs : List β) (acc : List Item), acc.Nodup →
      (xs.foldl (fun acc b =>
        if key b ∈ acc then acc else acc ++ [key b]) acc).Nodup := by
  intro xs
  induction xs with
  | nil => intro acc h; exact h
  | cons b xs ih =>
    intro acc h
    rw [List.foldl_cons]
    by_cases hmem : key b ∈ acc
    · rw [if_pos hmem]; exact ih acc h
    · rw [if_neg hmem]
      apply ih
      rw [List.nodup_append]
      exact ⟨h, List.nodup_singleton _, by simpa using hmem⟩

theorem insert_fold_mem {β : Type} (key : β → Item) :
    ∀ (xs : List β) (acc : List Item) (y : Item),
      y ∈ xs.foldl (fun acc b =>
        if key b ∈ acc then acc else acc ++ [key b]) acc
      ↔ (y ∈ acc ∨ ∃ b ∈ xs, key b = y) := by
  intro xs
  induction xs with
  | nil => intro acc y; simp
  | cons b xs ih =>
    intro acc y
    rw [List.foldl_cons]
    by_cases hmem : key b ∈ acc
    · rw [if_pos hmem, ih]
      constructor
      · rintro (h | ⟨b', hb', rfl⟩)
        · exact Or.inl h
        · exact Or.inr ⟨b', List.mem_cons_of_mem b hb', rfl⟩
      · rintro (h | ⟨b', hb', rfl⟩)
        · exact Or.inl h
        · rcases List.mem_cons.mp hb' with rfl | hb''
          · exact Or.inl hmem
          · exact Or.inr ⟨b', hb'', rfl⟩
    · rw [if_neg hmem, ih]
      constructor
      · rintro (h | h)
        · rcases List.mem_append.mp h with h' | h'
          · exact Or.inl h'
          · exact Or.inr ⟨b, List.mem_cons_self b xs,
              (List.mem_singleton.mp h').symm⟩
        · obtain ⟨b', hb', rfl⟩ := h
          exact Or.inr ⟨b', List.mem_cons_of_mem b hb', rfl⟩
      · rintro (h | ⟨b', hb', rfl⟩)
        · exact Or.inl (List.mem_append_left _ h)
        · rcases List.mem_cons.mp hb' with rfl | hb''
          · exact Or.inl (List.mem_append_right _ (List.mem_singleton_self _))
          · exact Or.inr ⟨b', hb'', rfl⟩

theorem ehmin_items_nodup (db : List Transaction) :
    (ehmin_items db).Nodup := by
  unfold ehmin_items ehmin_prune_keys
  have hload : (ehmin_load_keys db).Nodup := by
    unfold ehmin_load_keys
    have h : ∀ (db' : List Transaction) (acc : List Item), acc.Nodup →
        (db'.foldl (fun acc t =>
          (t.items.zip t.profit).foldl (fun acc ip =>
            if ip.1 ∈ acc then acc else acc ++ [ip.1]) acc) acc).Nodup := by
      intro db'
      induction db' with
      | nil => intro acc h; exact h
      | cons t db' ih =>
        intro acc h
        exact ih _ (insert_fold_nodup (fun ip : Item × Int => ip.1) (t.items.zip t.profit) acc h)
    exact h db [] List.nodup_nil
  have h : ∀ (db' : List Transaction) (acc : List Item), acc.Nodup →
      (db'.foldl (fun acc t =>
        t.items.foldl (fun acc i =>
          if i ∈ acc then acc else acc ++ [i]) acc) acc).Nodup := by
    intro db'
    induction db' with
    | nil => intro acc h; exact h
    | cons t db' ih =>
      intro acc h
      exact ih _ (insert_fold_nodup (fun x : Item => x) t.items acc h)
  exact h db _ hload

theorem mem_ehmin_items (db : List Transaction) (y : Item) :
    y ∈ ehmin_items db ↔ ∃ t ∈ db, y ∈ t.items := by
  unfold ehmin_items ehmin_prune_keys
  have h : ∀ (db' : List Transaction) (acc : List Item),
      (y ∈ db'.foldl (fun acc t =>
        t.items.foldl (fun acc i =>
          if i ∈ acc then acc else acc ++ [i]) acc) acc)
      ↔ (y ∈ acc ∨ ∃ t ∈ db', y ∈ t.items) := by
    intro db'
    induction db' with
    | nil => intro acc; simp
    | cons t db' ih =>
      intro acc
      rw [List.foldl_cons, ih, insert_fold_mem (fun x : Item => x)]
      constructor
      · rintro ((h | ⟨i, hi, rfl⟩) | ⟨t', ht', hy⟩)
        · exact Or.inl h
        · exact Or.inr ⟨t, List.mem_cons_self t db', hi⟩
        · exact Or.inr ⟨t', List.mem_cons_of_mem t ht', hy⟩
      · rintro (h | ⟨t', ht', hy⟩)
        · exact Or.inl (Or.inl h)
        · rcases List.mem_cons.mp ht' with rfl | ht''
          · exact Or.inl (Or.inr ⟨y, hy, rfl⟩)
          · exact Or.inr ⟨t', ht'', hy⟩
  rw [h db _]
  constructor
  · rintro (h | h)
    · -- y came from the load pass: it is an item of some transaction
      unfold ehmin_load_keys at h
      have h2 : ∀ (db' : List Transaction) (acc : List Item),
          (y ∈ db'.foldl (fun acc t =>
            (t.items.zip t.profit).foldl (fun acc ip =>
              if ip.1 ∈ acc then acc else acc ++ [ip.1]) acc) acc)
          → (y ∈ acc ∨ ∃ t ∈ db', y ∈ t.items) := by
        intro db'
        induction db' with
        | nil => intro acc h'; exact Or.inl h'
        | cons t db' ih =>
          intro acc h'
          rcases ih _ h' with h'' | ⟨t', ht', hy⟩
          · rcases (insert_fold_mem (fun ip : Item × Int => ip.1) _ acc y).mp h'' with h3 | h3
            · exact Or.inl h3
            · obtain ⟨ip, hip, rfl⟩ := h3
              exact Or.inr ⟨t, List.mem_cons_self t db',
                (List.of_mem_zip hip).1⟩
          · exact Or.inr ⟨t', List.mem_cons_of_mem t ht', hy⟩
      rcases h2 db [] h with h' | h'
      · exact absurd h' (List.not_mem_nil y)
      · exact h'
    · exact h
  · intro h
    exact Or.inr h

/-- The specification's exact utility of an itemset: over the transactions
containing all of `S`, the sum of quantity × profit of the members of `S`. -/
def specUtility (db : List Transaction) (S : List Item) : Int :=
  ((db.filter (fun t => decide (∀ x ∈ S, x ∈ t.items))).map (fun t =>
    (((rowsOf t).filter (fun r => decide (r.1 ∈ S))).map
      (fun r => r.2.1 * r.2.2)).sum)).sum

theorem pattern_inner_eq (t : Transaction) (hwf : WFTransaction t) :
    ∀ (S : List Item), S.Nodup → (∀ x ∈ S, x ∈ t.items) →
      ((S.map (fun x => t.items.indexOf x)).map
        (fun i => qtyAt t i * profitAt t i)).sum
      = (((rowsOf t).filter (fun r => decide (r.1 ∈ S))).map
          (fun r => r.2.1 * r.2.2)).sum := by
  intro S
  induction S with
  | nil =>
    intro _ _
    simp
  | cons x S ih =>
    intro hnd hcont
    have hxT : x ∈ t.items := hcont x (List.mem_cons_self x S)
    have hxS : x ∉ S := (List.nodup_cons.mp hnd).1
    have hfun : (fun r : Item × Int × Int => decide (r.1 ∈ x :: S))
        = (fun r : Item × Int × Int =>
            decide (r.1 = x) || decide (r.1 ∈ S)) := by
      funext r
      simp [List.mem_cons]
    rw [hfun, sum_filter_or]
    · have hz := rows_filter_eq_z x t.items t.quantities t.profit
        hwf.2.2.1 hxT hwf.1 hwf.2.1
      have hsingle : (((rowsOf t).filter
            (fun r => decide (r.1 = x))).map
            (fun r : Item × Int × Int => r.2.1 * r.2.2)).sum
          = qtyAt t (t.items.indexOf x) * profitAt t (t.items.indexOf x) := by
        unfold rowsOf
        rw [hz]
        simp [qtyAt, profitAt]
      rw [hsingle, List.map_cons, List.map_cons, List.sum_cons,
        ih (List.nodup_cons.mp hnd).2
          (fun y hy => hcont y (List.mem_cons_of_mem x hy))]
    · intro r _ hand
      have h1 : r.1 = x := by simpa using hand.1
      have h2 : r.1 ∈ S := by simpa using hand.2
      exact hxS (h1 ▸ h2)

theorem calculate_pattern_utility_eq_spec (db : List Transaction)
    (S : List Item) (hwf : WFDatabase db) (hnd : S.Nodup) :
    calculate_pattern_utility db S = specUtility db S := by
  unfold calculate_pattern_utility specUtility
  congr 1
  apply List.map_congr_left
  intro t ht
  have htdb : t ∈ db := List.mem_of_mem_filter ht
  have hcont : ∀ x ∈ S, x ∈ t.items := by
    have h2 := (List.mem_filter.mp ht).2
    exact of_decide_eq_true h2
  exact pattern_inner_eq t (hwf t htdb) S hnd hcont

/-- C2: before ordering, `EHMIN.mine_high_utility_patterns` returns exactly
the pairs `(S, u)` with `S` a non-empty subset of the item universe (the
items occurring in the database, as an enumeration of canonical
representatives), `u` the exact utility of `S` (sum over transactions
containing all of `S` of quantity × profit of `S`'s members), and
`u ≥ minimumUtility`; no two entries denote the same set. -/
theorem C2_exhaustive_characterization (db : List Transaction)
    (min_util : Int) (hwf : WFDatabase db) :
    (∀ p ∈ ehmin_mine db min_util,
        p.1 ≠ [] ∧ p.1.Sublist (ehmin_items db)
          ∧ p.2 = specUtility db p.1 ∧ min_util ≤ p.2)
    ∧ (∀ S : List Item, S.Sublist (ehmin_items db) → S ≠ [] →
        min_util ≤ specUtility db S →
        (S, specUtility db S) ∈ ehmin_mine db min_util)
    ∧ (ehmin_mine db min_util).Pairwise (fun a b => ¬ a.1.Perm b.1)
    ∧ (∀ y : Item, y ∈ ehmin_items db ↔ ∃ t ∈ db, y ∈ t.items) := by
  have hndu := ehmin_items_nodup db
  have hcomb := ehmin_all_combos_nodup _ hndu
  have hmine := ehmin_mine_eq db min_util hcomb
  refine ⟨?_, ?_, ?_, fun y => mem_ehmin_items db y⟩
  · intro p hp
    rw [hmine] at hp
    obtain ⟨c, hc, rfl⟩ := List.mem_map.mp hp
    have hcmem := List.mem_of_mem_filter hc
    have hpred := List.of_mem_filter hc
    obtain ⟨hsub, hne⟩ := (mem_ehmin_all_combos _ c).mp hcmem
    have hcnd : c.Nodup := List.Nodup.sublist hsub hndu
    have heq := calculate_pattern_utility_eq_spec db c hwf hcnd
    have hle : min_util ≤ calculate_pattern_utility db c :=
      of_decide_eq_true hpred
    exact ⟨hne, hsub, heq, hle⟩
  · intro S hsub hne hpred
    rw [hmine]
    have hSnd : S.Nodup := List.Nodup.sublist hsub hndu
    have heq := calculate_pattern_utility_eq_spec db S hwf hSnd
    refine List.mem_map.mpr ⟨S, List.mem_filter.mpr
      ⟨(mem_ehmin_all_combos _ S).mpr ⟨hsub, hne⟩,
        decide_eq_true (heq ▸ hpred)⟩, ?_⟩
    rw [heq]
  · rw [hmine, List.pairwise_map]
    refine List.Pairwise.imp_of_mem ?_ (List.Nodup.filter _ hcomb)
    intro a b ha hb hne hperm
    have hsa := ((mem_ehmin_all_combos _ a).mp
      (List.mem_of_mem_filter ha)).1
    have hsb := ((mem_ehmin_all_combos _ b).mp
      (List.mem_of_mem_filter hb)).1
    exact hne (sublist_perm_eq _ hndu hsa hsb hperm)

theorem C2_exhaustive_characterization_witness :
    (∀ p ∈ ehmin_mine dbC1 2,
        p.1 ≠ [] ∧ p.1.Sublist (ehmin_items dbC1)
          ∧ p.2 = specUtility dbC1 p.1 ∧ 2 ≤ p.2)
    ∧ (∀ S : List Item, S.Sublist (ehmin_items dbC1) → S ≠ [] →
        2 ≤ specUtility dbC1 S →
        (S, specUtility dbC1 S) ∈ ehmin_mine dbC1 2)
    ∧ (ehmin_mine dbC1 2).Pairwise (fun a b => ¬ a.1.Perm b.1)
    ∧ (∀ y : Item, y ∈ ehmin_items dbC1 ↔ ∃ t ∈ dbC1, y ∈ t.items) :=
  C2_exhaustive_characterization dbC1 2 (by decide)

/-! ## ehmun.py: the sign-aware branch-and-bound search (EMHUNAlgorithm) -/

/-- Python `set.union({item})` on an itemset kept in insertion order. -/
def setAdd (X : List Item) (i : Item) : List Item :=
  if i ∈ X then X else X ++ [i]

/-- The canonical (sorted) form of an itemset, as used for `frozenset`
identity and visited-set membership. -/
def canonicalOf (l : List Item) : List Item :=
  l.insertionSort (· ≤ ·)

structure EmhunState where
  visited : List (List Item)
  results : List (List Item × Int)
deriving DecidableEq, Repr

/-- `EMHUNAlgorithm.searchN` (fuel-indexed recursion; the fuel passed by
`emhun_run` exceeds every reachable recursion depth).  The projected
databases built by the source are dead values — `calculate_utility` always
reads `self.database` — so they are not carried here. -/
def emhun_searchN (db : List Transaction) (min_utility : Int) :
    Nat → List Item → List Item → EmhunState → EmhunState
  | 0, _, _, st => st
  | fuel + 1, eta, beta, st =>
    eta.foldl (fun st item =>
      let ni := setAdd beta item
      let cn := canonicalOf ni
      if cn ∈ st.visited then st
      else
        let st1 : EmhunState := ⟨cn :: st.visited, st.results⟩
        let u := calculate_utility db ni
        if min_utility ≤ u ∧ 0 < u then
          emhun_searchN db min_utility fuel (eta.erase item) ni
            ⟨st1.visited, st1.results ++ [(ni, u)]⟩
        else st1) st

/-- `EMHUNAlgorithm.search` (fuel-indexed).  `calculate_primary` is invoked
by the source with the empty itemset (`calculate_RSU([], item)`), and the
recursion carries `secondary - {item}`. -/
def emhun_search (db : List Transaction) (min_utility : Int)
    (eta : List Item) :
    Nat → List Item → List Item → List Item → EmhunState → EmhunState
  | 0, _, _, _, st => st
  | fuel + 1, X, primary, secondary, st =>
    primary.foldl (fun st item =>
      let beta := setAdd X item
      let cb := canonicalOf beta
      if cb ∈ st.visited then st
      else
        let st1 : EmhunState := ⟨cb :: st.visited, st.results⟩
        let u := calculate_utility db beta
        let st2 : EmhunState :=
          if min_utility ≤ u ∧ 0 < u then
            emhun_searchN db min_utility fuel eta beta
              ⟨st1.visited, st1.results ++ [(beta, u)]⟩
          else st1
        let newSecondary := secondary.erase item
        let newPrimary := newSecondary.filter
          (fun i => decide (min_utility ≤ calculate_RSU db [] i))
        if newPrimary ≠ [] then
          emhun_search db min_utility eta fuel beta newPrimary newSecondary st2
        else st2) st

/-- Descending-utility order (`sort(key=lambda x: x[1], reverse=True)`). -/
def utilDesc (a b : List Item × Int) : Prop := b.2 ≤ a.2

instance : DecidableRel utilDesc := fun a b => by
  unfold utilDesc; infer_instance

/-- `EMHUNAlgorithm.run` (the algorithmic part): classify, filter the
secondary and primary item sets, search, then sort the recorded itemsets by
descending utility.  (`sort_items` computes `sorted_secondary`/`sorted_eta`,
which the search never reads; it is omitted.) -/
def emhun_run (db : List Transaction) (min_utility : Int) :
    List (List Item × Int) :=
  let c := classify_items db
  let eta := c.2.2
  let secondary := (c.1 ++ c.2.1 ++ eta).filter
    (fun i => decide (min_utility ≤ calculate_RTWU db i))
  let primary := secondary.filter
    (fun i => decide (min_utility ≤ calculate_RSU db [] i))
  let st := emhun_search db min_utility eta
    (secondary.length + eta.length + 1) [] primary secondary ⟨[], []⟩
  st.results.insertionSort utilDesc

/-! ## Claim C3 -/

/-- C3 (code evaluated at the failing input): on the well-formed two-item
database `dbC1` with `minimumUtility = 2`, the exhaustive strategy finds
`({0, 1}, 2)` while the sign-aware branch-and-bound finds nothing: item `0`
has `RSU(∅, 0) = 1 < 2`, so it is excluded from the primary set and every
branch reaching `{0, 1}` is cut, although that superset qualifies. -/
theorem C3_strategies_disagree :
    WFDatabase dbC1 ∧ (ehmin_items dbC1).length ≤ 10 ∧
      ehmin_run dbC1 2 = [([0, 1], 2)] ∧ emhun_run dbC1 2 = [] := by
  decide

/-! ## Claim C8: output ordering -/

theorem lexLe_total : ∀ xs ys : List Item,
    lexLe xs ys = true ∨ lexLe ys xs = true := by
  intro xs
  induction xs with
  | nil => intro ys; left; rfl
  | cons x xs ih =>
    intro ys
    cases ys with
    | nil => right; rfl
    | cons y ys =>
      simp only [lexLe, Bool.or_eq_true, Bool.and_eq_true, decide_eq_true_eq,
        beq_iff_eq]
      rcases lt_trichotomy x y with h | h | h
      · exact Or.inl (Or.inl h)
      · rcases ih ys with hl | hl
        · exact Or.inl (Or.inr ⟨h, hl⟩)
        · exact Or.inr (Or.inr ⟨h.symm, hl⟩)
      · exact Or.inr (Or.inl h)

theorem lexLe_trans : ∀ xs ys zs : List Item,
    lexLe xs ys = true → lexLe ys zs = true → lexLe xs zs = true := by
  intro xs
  induction xs with
  | nil => intro ys zs _ _; rfl
  | cons x xs ih =>
    intro ys zs h1 h2
    cases ys with
    | nil => simp [lexLe] at h1
    | cons y ys =>
      cases zs with
      | nil => simp [lexLe] at h2
      | cons z zs =>
        simp only [lexLe, Bool.or_eq_true, Bool.and_eq_true,
          decide_eq_true_eq, beq_iff_eq] at h1 h2 ⊢
        rcases h1 with h1 | ⟨he1, hl1⟩
        · rcases h2 with h2 | ⟨he2, hl2⟩
          · exact Or.inl (lt_trans h1 h2)
          · exact Or.inl (by rw [← he2]; exact h1)
        · rcases h2 with h2 | ⟨he2, hl2⟩
          · exact Or.inl (by rw [he1]; exact h2)
          · exact Or.inr ⟨he1.trans he2, ih ys zs hl1 hl2⟩

instance : IsTotal (List Item × Int) ehminKey := by
  constructor
  intro a b
  unfold ehminKey
  rcases lt_trichotomy a.2 b.2 with h | h | h
  · right; left; exact h
  · rcases lexLe_total a.1 b.1 with hl | hl
    · left; right; exact ⟨h.symm, hl⟩
    · right; right; exact ⟨h, hl⟩
  · left; left; exact h

instance : IsTrans (List Item × Int) ehminKey := by
  constructor
  intro a b c hab hbc
  unfold ehminKey at *
  rcases hab with h1 | ⟨h1, hl1⟩
  · rcases hbc with h2 | ⟨h2, hl2⟩
    · left; omega
    · left; omega
  · rcases hbc with h2 | ⟨h2, hl2⟩
    · left; omega
    · right; exact ⟨h2.trans h1, lexLe_trans _ _ _ hl1 hl2⟩

instance : IsTotal (List Item × Int) utilDesc := by
  constructor
  intro a b
  unfold utilDesc
  exact le_total b.2 a.2

instance : IsTrans (List Item × Int) utilDesc := by
  constructor
  intro a b c hab hbc
  unfold utilDesc at *
  omega

/-- The worked C8 counterexample database: items first appear in the
order 2, 1; both `{2}` and `{2, 1}` have utility 5. -/
def dbC8 : List Transaction :=
  [⟨1, [2, 1], [1, 1], [3, 2]⟩, ⟨2, [2], [1], [2]⟩]

/-- C8 counterexample: the claim says ties are broken by lexical order on
the canonical sorted item sequence.  On `dbC8` with threshold 5 the two
results tie at utility 5 and their canonical forms are `[2]` and `[1, 2]`;
lexically `[1, 2]` strictly precedes `[2]`, yet the code emits `([2], 5)`
first — `EHMIN.run` sorts by the stored pattern tuple, whose element order
is the first-appearance order of items, not the canonical sorted form. -/
theorem C8_ordering_counterexample :
    WFDatabase dbC8 ∧
      ehmin_run dbC8 5 = [([2], 5), ([2, 1], 5)] ∧
      canonicalOf [2, 1] = [1, 2] ∧
      lexLe [1, 2] [2] = true ∧ ([1, 2] : List Item) ≠ [2] := by
  decide

/-- C8 (amended): both exact strategies are deterministic (they are pure
functions of the database here), and the final output orderings are:
`EHMIN.run` sorts by descending utility with ties broken by Python tuple
order on the stored pattern (items in first-appearance order — not the
canonical sorted sequence); `EMHUNAlgorithm.run` sorts by descending
utility only. -/
theorem C8_output_sorted (db : List Transaction) (min_util : Int) :
    List.Sorted ehminKey (ehmin_run db min_util)
      ∧ List.Sorted utilDesc (emhun_run db min_util) :=
  ⟨List.sorted_insertionSort ehminKey _,
   List.sorted_insertionSort utilDesc _⟩

/-! ## tkn.py: the top-k threshold-raising search (TKN) -/

/-- The TKN run state: the visited set, `min_util` (`none` models the
initial `float('-inf')`), and the bounded priority queue. -/
structure TKNState where
  visited : List (List Item)
  min_util : Option Int
  queue : List (List Item × Int)
deriving DecidableEq, Repr

/-- `utility >= self.min_util` as the code compares it (`-∞` below all). -/
def infLeB : Option Int → Int → Bool
  | none, _ => true
  | some m, u => decide (m ≤ u)

/-- The proposition behind `infLeB`. -/
def infLe (m : Option Int) (u : Int) : Prop := infLeB m u = true

instance (m : Option Int) (u : Int) : Decidable (infLe m u) := by
  unfold infLe; infer_instance

/-- Order on threshold values (`none` is `-∞`). -/
def optLe : Option Int → Option Int → Prop
  | none, _ => True
  | some _, none => False
  | some a, some b => a ≤ b

instance (a b : Option Int) : Decidable (optLe a b) := by
  unfold optLe
  rcases a with - | a <;> rcases b with - | b <;> infer_instance

theorem optLe_refl (a : Option Int) : optLe a a := by
  rcases a with - | a <;> simp [optLe]

theorem optLe_trans {a b c : Option Int} (h1 : optLe a b) (h2 : optLe b c) :
    optLe a c := by
  rcases a with - | a <;> rcases b with - | b <;> rcases c with - | c <;>
    simp [optLe] at * <;> omega

theorem infLe_of_optLe {a b : Option Int} {u : Int} (h1 : optLe a b)
    (h2 : infLe b u) : infLe a u := by
  rcases a with - | a <;> rcases b with - | b <;>
    simp [optLe, infLe, infLeB] at * <;> omega

/-- The insert/evict/raise block of `TKN.explore_candidates`: append, sort
descending by utility, pop the minimum while over capacity, and when the
queue holds exactly `k` entries set `min_util` to the k-th best utility. -/
def tknNewQueue (k : Nat) (q1 : List (List Item × Int)) :
    List (List Item × Int) :=
  if k < q1.length then q1.dropLast else q1

def tknNewMin (k : Nat) (m : Option Int) (q1 : List (List Item × Int)) :
    Option Int :=
  if (tknNewQueue k q1).length = k then
    match (tknNewQueue k q1).getLast? with
    | some e => some e.2
    | none => m
  else m

def tkn_insert (k : Nat) (itemset : List Item) (u : Int) (st : TKNState) :
    TKNState :=
  ⟨st.visited,
   tknNewMin k st.min_util
     ((st.queue ++ [(itemset, u)]).insertionSort utilDesc),
   tknNewQueue k ((st.queue ++ [(itemset, u)]).insertionSort utilDesc)⟩

/-- The per-node visit of `TKN.explore_candidates`: mark visited, compute
the utility of the (sorted) current itemset over the projection, and insert
it when it meets the threshold. -/
def tkn_visit (db : List Transaction) (k : Nat) (cur : List Item)
    (proj : List Transaction) (st : TKNState) : TKNState :=
  let sc := canonicalOf cur
  if sc ∈ st.visited then st
  else
    let st1 : TKNState := ⟨sc :: st.visited, st.min_util, st.queue⟩
    let u := ((proj.filter (fun t => decide (∀ x ∈ sc, x ∈ t.items))).map
      (fun t => (((rowsOf t).filter (fun r => decide (r.1 ∈ sc))).map
        (fun r => r.2.1 * r.2.2)).sum)).sum
    if infLeB st1.min_util u then tkn_insert k sc u st1 else st1

/-- `TKN.explore_candidates` (fuel-indexed; the fuel passed by `tkn_run`
exceeds every reachable recursion depth). -/
def tkn_explore (db : List Transaction) (secondary : List Item) (k : Nat) :
    Nat → List Item → List Transaction → TKNState → TKNState
  | 0, _, _, st => st
  | fuel + 1, cur, proj, st =>
    let sc := canonicalOf cur
    if sc ∈ st.visited then st
    else
      let st2 := tkn_visit db k cur proj st
      secondary.foldl (fun st item =>
        if (!(cur.contains item))
            && (cur.getLast?).all (fun l => decide (l < item)) then
          tkn_explore db secondary k fuel (cur ++ [item])
            (proj.filter (fun t =>
              decide (∀ x ∈ cur ++ [item], x ∈ t.items))) st
        else st) st2

/-- Ascending PTWU comparison used by `build_li_structure`'s `sorted`. -/
def ptwuAsc (db : List Transaction) (a b : Item) : Prop :=
  ptwuOf db a ≤ ptwuOf db b

instance (db : List Transaction) : DecidableRel (ptwuAsc db) := fun a b => by
  unfold ptwuAsc; infer_instance

/-- The LIU value of a contiguous range: utility of the range itemset over
the transactions containing all of it. -/
def liuValue (db : List Transaction) (subset : List Item) : Int :=
  ((db.filter (fun t => decide (∀ x ∈ subset, x ∈ t.items))).map (fun t =>
    (((rowsOf t).filter (fun r => decide (r.1 ∈ subset))).map
      (fun r => r.2.1 * r.2.2)).sum)).sum

/-- Python dict put (overwrite or append) keyed by the range tuple. -/
def liPut : List (List Item × Int) → List Item → Int → List (List Item × Int)
  | [], key, v => [(key, v)]
  | (a, w) :: rest, key, v =>
    if a = key then (a, v) :: rest else (a, w) :: liPut rest key v

/-- `TKN.build_li_structure`: LIU of every contiguous sub-range of the
items ordered by ascending PTWU. -/
def build_li (db : List Transaction) (ordered : List Item) :
    List (List Item × Int) :=
  (List.range ordered.length).foldl (fun d i =>
    (List.range (ordered.length - i)).foldl (fun d dlen =>
      let subset := (ordered.drop i).take (dlen + 1)
      liPut d subset (liuValue db subset)) d) []

/-- `TKN.raise_min_util`: sort the LIU values descending and raise the
threshold to the k-th largest (`max` with the current value).  Faithful to
the source for `k ≥ 1` (for `k = 0` Python would read `li_values[-1]`). -/
def raise_min_util (k : Nat) (liVals : List Int) (m : Option Int) :
    Option Int :=
  let s := liVals.insertionSort (fun a b : Int => b ≤ a)
  if k ≤ s.length then
    match s.get? (k - 1) with
    | some v =>
      match m with
      | none => some v
      | some m0 => some (max m0 v)
    | none => m
  else m

/-- `TKN.run` (the algorithmic part): PTWU, secondary pruning (against the
initial `-∞` threshold), LIU building, threshold raising, then the
depth-first exploration from the empty itemset; returns the queue. -/
def tkn_run (db : List Transaction) (k : Nat) : List (List Item × Int) :=
  let secondary := ((calculate_ptwu db).filter
    (fun p => infLeB none p.2)).map (·.1)
  let ordered := secondary.insertionSort (ptwuAsc db)
  let li := build_li db ordered
  let m := raise_min_util k (li.map (·.2)) none
  let st := tkn_explore db secondary k (secondary.length + 1) [] db
    ⟨[], m, []⟩
  st.queue

/-! ## Claim C6: monotonicity of the TKN threshold -/

theorem sorted_utilDesc_last_le (l : List (List Item × Int))
    (hs : List.Sorted utilDesc l) {x : List Item × Int}
    (hx : l.getLast? = some x) : ∀ e ∈ l, x.2 ≤ e.2 := by
  induction l with
  | nil => cases hx
  | cons a l ih =>
    cases l with
    | nil =>
      have hxa : a = x := by simpa using hx
      intro e he
      rw [List.mem_singleton.mp he, ← hxa]
    | cons b l' =>
      have hx' : (b :: l').getLast? = some x := by
        rw [← List.getLast?_cons_cons (a := a)]
        exact hx
      have hs' := List.sorted_cons.mp hs
      have hrec := ih hs'.2 hx'
      intro e he
      rcases List.mem_cons.mp he with rfl | he'
      · have hxmem : x ∈ b :: l' := List.mem_of_getLast?_eq_some hx'
        exact hs'.1 x hxmem
      · exact hrec e he'

theorem infLe_optLe_some {m : Option Int} {u : Int} (h : infLe m u) :
    optLe m (some u) := by
  rcases m with - | m <;> simpa [optLe, infLe, infLeB] using h

theorem tkn_insert_spec (k : Nat) (itemset : List Item) (u : Int)
    (st : TKNState) (hinv : ∀ e ∈ st.queue, infLe st.min_util e.2)
    (hu : infLe st.min_util u) :
    optLe st.min_util (tkn_insert k itemset u st).min_util
      ∧ ∀ e ∈ (tkn_insert k itemset u st).queue,
          infLe (tkn_insert k itemset u st).min_util e.2 := by
  have hq1mem : ∀ e ∈ (st.queue ++ [(itemset, u)]).insertionSort utilDesc,
      infLe st.min_util e.2 := by
    intro e he
    have h2 : e ∈ st.queue ++ [(itemset, u)] :=
      (List.mem_insertionSort utilDesc).mp he
    rcases List.mem_append.mp h2 with h | h
    · exact hinv e h
    · rw [List.mem_singleton.mp h]; exact hu
  have hq1sorted : List.Sorted utilDesc
      ((st.queue ++ [(itemset, u)]).insertionSort utilDesc) :=
    List.sorted_insertionSort utilDesc _
  set q1 := (st.queue ++ [(itemset, u)]).insertionSort utilDesc with hq1
  have hq2sub : ∀ e ∈ tknNewQueue k q1, e ∈ q1 := by
    intro e he
    unfold tknNewQueue at he
    by_cases hlen : k < q1.length
    · rw [if_pos hlen] at he
      exact (List.dropLast_sublist q1).subset he
    · rw [if_neg hlen] at he
      exact he
  have hq2sorted : List.Sorted utilDesc (tknNewQueue k q1) := by
    unfold tknNewQueue
    by_cases hlen : k < q1.length
    · rw [if_pos hlen]
      exact hq1sorted.sublist (List.dropLast_sublist q1)
    · rw [if_neg hlen]
      exact hq1sorted
  show optLe st.min_util (tknNewMin k st.min_util q1)
    ∧ ∀ e ∈ tknNewQueue k q1, infLe (tknNewMin k st.min_util q1) e.2
  unfold tknNewMin
  by_cases hk : (tknNewQueue k q1).length = k
  · rw [if_pos hk]
    cases hlast : (tknNewQueue k q1).getLast? with
    | none =>
      exact ⟨optLe_refl _, fun e he => hq1mem e (hq2sub e he)⟩
    | some x =>
      constructor
      · exact infLe_optLe_some
          (hq1mem x (hq2sub x (List.mem_of_getLast?_eq_some hlast)))
      · intro e he
        have := sorted_utilDesc_last_le _ hq2sorted hlast e he
        simpa [infLe, infLeB] using this
  · rw [if_neg hk]
    exact ⟨optLe_refl _, fun e he => hq1mem e (hq2sub e he)⟩

theorem tkn_visit_spec (db : List Transaction) (k : Nat) (cur : List Item)
    (proj : List Transaction) (st : TKNState)
    (hinv : ∀ e ∈ st.queue, infLe st.min_util e.2) :
    optLe st.min_util (tkn_visit db k cur proj st).min_util
      ∧ ∀ e ∈ (tkn_visit db k cur proj st).queue,
          infLe (tkn_visit db k cur proj st).min_util e.2 := by
  unfold tkn_visit
  by_cases hv : canonicalOf cur ∈ st.visited
  · rw [if_pos hv]
    exact ⟨optLe_refl _, hinv⟩
  · rw [if_neg hv]
    set u := ((proj.filter
      (fun t => decide (∀ x ∈ canonicalOf cur, x ∈ t.items))).map
      (fun t => (((rowsOf t).filter
        (fun r => decide (r.1 ∈ canonicalOf cur))).map
        (fun r => r.2.1 * r.2.2)).sum)).sum with hu
    by_cases hle : infLeB st.min_util u
    · rw [if_pos hle]
      exact tkn_insert_spec k (canonicalOf cur) u
        ⟨canonicalOf cur :: st.visited, st.min_util, st.queue⟩ hinv hle
    · rw [if_neg hle]
      exact ⟨optLe_refl _, hinv⟩

theorem tkn_explore_mono (db : List Transaction) (secondary : List Item)
    (k : Nat) :
    ∀ (fuel : Nat) (cur : List Item) (proj : List Transaction)
      (st : TKNState), (∀ e ∈ st.queue, infLe st.min_util e.2) →
      optLe st.min_util
        (tkn_explore db secondary k fuel cur proj st).min_util
      ∧ ∀ e ∈ (tkn_explore db secondary k fuel cur proj st).queue,
          infLe (tkn_explore db secondary k fuel cur proj st).min_util e.2 := by
  intro fuel
  induction fuel with
  | zero =>
    intro cur proj st hinv
    exact ⟨optLe_refl _, hinv⟩
  | succ fuel ih =>
    intro cur proj st hinv
    rw [tkn_explore]
    by_cases hv : canonicalOf cur ∈ st.visited
    · rw [if_pos hv]
      exact ⟨optLe_refl _, hinv⟩
    · rw [if_neg hv]
      have hvisit := tkn_visit_spec db k cur proj st hinv
      have hfold : ∀ (items : List Item) (st' : TKNState),
          (∀ e ∈ st'.queue, infLe st'.min_util e.2) →
          optLe st'.min_util
            ((items.foldl (fun st item =>
              if (!(cur.contains item))
                  && (cur.getLast?).all (fun l => decide (l < item)) then
                tkn_explore db secondary k fuel (cur ++ [item])
                  (proj.filter (fun t =>
                    decide (∀ x ∈ cur ++ [item], x ∈ t.items))) st
              else st) st')).min_util
          ∧ ∀ e ∈ (items.foldl (fun st item =>
              if (!(cur.contains item))
                  && (cur.getLast?).all (fun l => decide (l < item)) then
                tkn_explore db secondary k fuel (cur ++ [item])
                  (proj.filter (fun t =>
                    decide (∀ x ∈ cur ++ [item], x ∈ t.items))) st
              else st) st').queue,
              infLe ((items.foldl (fun st item =>
                if (!(cur.contains item))
                    && (cur.getLast?).all (fun l => decide (l < item)) then
                  tkn_explore db secondary k fuel (cur ++ [item])
                    (proj.filter (fun t =>
                      decide (∀ x ∈ cur ++ [item], x ∈ t.items))) st
                else st) st')).min_util e.2 := by
        intro items
        induction items with
        | nil => intro st' hinv'; exact ⟨optLe_refl _, hinv'⟩
        | cons item items ihf =>
          intro st' hinv'
          rw [List.foldl_cons]
          by_cases hc : ((!(cur.contains item))
              && (cur.getLast?).all (fun l => decide (l < item))) = true
          · rw [if_pos hc]
            have hstep := ih (cur ++ [item])
              (proj.filter (fun t =>
                decide (∀ x ∈ cur ++ [item], x ∈ t.items))) st' hinv'
            have hrest := ihf _ hstep.2
            exact ⟨optLe_trans hstep.1 hrest.1, hrest.2⟩
          · rw [if_neg hc]
            exact ihf st' hinv'
      have hres := hfold secondary (tkn_visit db k cur proj st) hvisit.2
      exact ⟨optLe_trans hvisit.1 hres.1, hres.2⟩

theorem raise_min_util_mono (k : Nat) (liVals : List Int) (m : Option Int) :
    optLe m (raise_min_util k liVals m) := by
  unfold raise_min_util
  by_cases hk : k ≤ (liVals.insertionSort (fun a b : Int => b ≤ a)).length
  · rw [if_pos hk]
    cases hget : (liVals.insertionSort (fun a b : Int => b ≤ a)).get? (k - 1)
      with
    | none => exact optLe_refl m
    | some v =>
      rcases m with - | m0
      · simp [optLe]
      · simp [optLe]
  · rw [if_neg hk]
    exact optLe_refl m

/-- C6: the TKN acceptance threshold is non-decreasing: it starts at `-∞`
(the run seeds `min_util` from `none`), `raise_min_util` takes a maximum
with the current value, and the exploration never assigns a value smaller
than the threshold in force, provided every queue entry met the threshold
when accepted (the queue invariant, trivially true of the empty initial
queue). -/
theorem C6_threshold_monotone (db : List Transaction) (secondary : List Item)
    (k : Nat) (liVals : List Int) (m : Option Int) (fuel : Nat)
    (cur : List Item) (proj : List Transaction) (st : TKNState)
    (hinv : ∀ e ∈ st.queue, infLe st.min_util e.2) :
    optLe m (raise_min_util k liVals m)
      ∧ optLe st.min_util
          (tkn_explore db secondary k fuel cur proj st).min_util :=
  ⟨raise_min_util_mono k liVals m,
   (tkn_explore_mono db secondary k fuel cur proj st hinv).1⟩

theorem C6_threshold_monotone_witness :
    optLe (some 2) (raise_min_util 1 [3, 5] (some 2))
      ∧ optLe (some 0)
          (tkn_explore dbC1 [0, 1] 1 2 [] dbC1
            ⟨[], some 0, [([4], 7)]⟩).min_util :=
  C6_threshold_monotone dbC1 [0, 1] 1 [3, 5] (some 2) 2 [] dbC1
    ⟨[], some 0, [([4], 7)]⟩ (by decide)

/-! ## Claim C10 -/

/-- The root visit of the exploration: on the empty current itemset with an
empty queue and a threshold at most `0`, the entry `((), 0)` is inserted. -/
theorem tkn_visit_root_queue (db proj : List Transaction) (k : Nat)
    (m : Option Int) (hk : 1 ≤ k) (hm : infLe m 0) :
    (tkn_visit db k [] proj ⟨[], m, []⟩).queue = [([], 0)] := by
  unfold tkn_visit
  rw [if_neg (List.not_mem_nil _)]
  have hu : ((proj.filter (fun t =>
      decide (∀ x ∈ canonicalOf ([] : List Item), x ∈ t.items))).map
      (fun t => (((rowsOf t).filter
        (fun r => decide (r.1 ∈ canonicalOf ([] : List Item)))).map
        (fun r => r.2.1 * r.2.2)).sum)).sum = 0 := by
    simp [canonicalOf, List.insertionSort]
  rw [hu]
  have hcond : infLeB m 0 = true := hm
  show (if infLeB m 0 = true then
      tkn_insert k (canonicalOf []) 0
        ⟨[canonicalOf ([] : List Item)], m, []⟩
    else ⟨[canonicalOf ([] : List Item)], m, []⟩).queue = [([], 0)]
  rw [if_pos hcond]
  unfold tkn_insert
  show tknNewQueue k ((([] : List (List Item × Int))
      ++ [(canonicalOf [], 0)]).insertionSort utilDesc) = [([], 0)]
  have h1 : (([] : List (List Item × Int))
      ++ [(canonicalOf ([] : List Item), 0)]).insertionSort utilDesc
      = [([], 0)] := by
    simp [canonicalOf, List.insertionSort, List.orderedInsert]
  rw [h1]
  unfold tknNewQueue
  rw [if_neg (by simp; omega)]

/-- C10: the TKN exploration starts at the empty itemset, whose computed
utility is `0`; whenever the threshold after LIU raising is at most `0`
(in particular, whenever the LIU structure holds fewer than `k` values, in
which case raising leaves the threshold at `-∞`), the root visit inserts
`((), 0)` into the (initially empty) priority queue — and it can indeed
appear in the returned top-k list, as the run on the empty database
shows. -/
theorem C10_empty_itemset_seed (db proj : List Transaction) (k : Nat)
    (m : Option Int) (liVals : List Int) (hk : 1 ≤ k) (hm : infLe m 0)
    (hlen : liVals.length < k) :
    (tkn_visit db k [] proj ⟨[], m, []⟩).queue = [([], 0)]
      ∧ raise_min_util k liVals none = none
      ∧ ([], 0) ∈ tkn_run [] 1 := by
  refine ⟨tkn_visit_root_queue db proj k m hk hm, ?_, ?_⟩
  · unfold raise_min_util
    rw [if_neg (by rw [List.length_insertionSort]; omega)]
  · decide

theorem C10_empty_itemset_seed_witness :
    (tkn_visit dbC1 2 [] dbC1 ⟨[], none, []⟩).queue = [([], 0)]
      ∧ raise_min_util 2 [5] none = none
      ∧ ([], 0) ∈ tkn_run [] 1 :=
  C10_empty_itemset_seed dbC1 dbC1 2 none [5] (by decide) (by decide)
    (by decide)

/-! ## Claim C9 -/

/-- A transaction whose three parallel sequences differ in length:
two items but one quantity and one profit. -/
def dbC9 : List Transaction := [⟨1, [0, 1], [1], [2]⟩]

/-- C9 (code evaluated at the failing input): no validation exists — on a
transaction whose parallel sequences differ in length, TKN silently
proceeds: `zip` truncates to the shortest sequence, item `1` never enters
the PTWU table, and the run returns the normal mining result `[({0}, 2)]`,
identical to the run on the explicitly truncated database — no
`MalformedTransaction` failure occurs before (or during) mining. -/
theorem C9_silent_truncation :
    (∃ t ∈ dbC9, t.items.length ≠ t.quantities.length)
      ∧ tkn_run dbC9 1 = [([0], 2)]
      ∧ tkn_run dbC9 1 = tkn_run [⟨1, [0], [1], [2]⟩] 1 := by
  decide

/-! ## tkhuim_ga.py: the heuristic population search

The source draws from Python's global PRNG (`random.choice`,
`random.random() < mutation_rate`).  The embedding is parameterized by an
oracle supplying those draws: `pick` yields the index stream consumed by
`random.choice` and `coin` the outcomes of the Bernoulli draws (the
mutation-rate comparison is absorbed into the oracle), each thread through
an explicit counter.  Everything else follows the source. -/

structure GaRand where
  pick : Nat → Nat
  coin : Nat → Bool

/-- Python `set(...)` of a list, in first-appearance order. -/
def dedup (l : List Item) : List Item :=
  l.foldl (fun acc i => if i ∈ acc then acc else acc ++ [i]) []

/-- `calculate_tu`: sum of quantity × profit over `zip`. -/
def calculate_tu (t : Transaction) : Int :=
  ((t.quantities.zip t.profit).map (fun qp => qp.1 * qp.2)).sum

/-- Descending transaction-utility order for `initialize_population`. -/
def tuDesc (a b : Transaction) : Prop := calculate_tu b ≤ calculate_tu a

instance : DecidableRel tuDesc := fun a b => by
  unfold tuDesc; infer_instance

/-- `initialize_population`: the item sets of the `population_size`
highest-utility transactions. -/
def initialize_population (transactions : List Transaction)
    (population_size : Nat) : List (List Item) :=
  ((transactions.insertionSort tuDesc).take population_size).map
    (fun t => dedup t.items)

/-- `evaluate_fitness`: utility of a solution across all transactions. -/
def evaluate_fitness (solution : List Item)
    (transactions : List Transaction) : Int :=
  ((transactions.filter
      (fun t => decide (∀ x ∈ solution, x ∈ t.items))).map (fun t =>
    (((idxRange t).filter (fun i => decide (itemAt t i ∈ solution))).map
      (fun i => qtyAt t i * profitAt t i)).sum)).sum

/-- `random.choice(list(s))` via the oracle's index stream. -/
def ga_choice (rand : GaRand) (ctr : Nat) (s : List Item) : Item :=
  s.getD (rand.pick ctr % s.length) 0

/-- `crossover`: swap one randomly chosen item between the parents
(when both are non-empty); returns the children and the advanced pick
counter. -/
def crossover (rand : GaRand) (pc : Nat) (p1 p2 : List Item) :
    (List Item × List Item) × Nat :=
  if 0 < p1.length ∧ 0 < p2.length then
    ((setAdd (p1.erase (ga_choice rand pc p1)) (ga_choice rand (pc + 1) p2),
      setAdd (p2.erase (ga_choice rand (pc + 1) p2))
        (ga_choice rand pc p1)),
     pc + 2)
  else ((p1, p2), pc)

/-- `mutate`: with oracle-supplied Bernoulli draws, remove one random
member and/or add one random item of the universe; returns the mutated
solution and the advanced counters. -/
def mutate (rand : GaRand) (s allItems : List Item) (pc cc : Nat) :
    List Item × Nat × Nat :=
  if rand.coin cc then
    let s1 := if 0 < s.length then s.erase (ga_choice rand pc s) else s
    let pc1 := if 0 < s.length then pc + 1 else pc
    if rand.coin (cc + 1) then
      (setAdd s1 (ga_choice rand pc1 allItems), pc1 + 2, cc + 2)
    else (s1, pc1, cc + 2)
  else (s, pc, cc + 1)

/-- Fitness-descending order on `(fitness, solution)` pairs, the key of
`sorted(zip(fitness_values, population), reverse=True)` (ties are kept
stable). -/
def fitDesc (a b : Int × List Item) : Prop := b.1 ≤ a.1

instance : DecidableRel fitDesc := fun a b => by
  unfold fitDesc; infer_instance

/-- One generation of `tkhuim_ga`: select the two fittest, cross over,
mutate, replace the population, and record the canonical forms of all
members; fails like the source (`IndexError`) when the population holds
fewer than two solutions. -/
def ga_step (transactions : List Transaction) (allItems : List Item)
    (rand : GaRand) (population : List (List Item)) (pc cc : Nat)
    (uniq : List (List Item)) :
    Except String (List (List Item) × Nat × Nat × List (List Item)) :=
  match ((population.map (fun s =>
      (evaluate_fitness s transactions, s))).insertionSort fitDesc).map
      (·.2) with
  | p1 :: p2 :: _ =>
    let cr := crossover rand pc p1 p2
    let m1 := mutate rand cr.1.1 allItems cr.2 cc
    let m2 := mutate rand cr.1.2 allItems m1.2.1 m1.2.2
    let newPop := [p1, p2, m1.1, m2.1]
    Except.ok (newPop, m2.2.1, m2.2.2,
      newPop.foldl (fun u s =>
        if canonicalOf s ∈ u then u else u ++ [canonicalOf s]) uniq)
  | _ => Except.error "IndexError"

def ga_loop (transactions : List Transaction) (allItems : List Item)
    (rand : GaRand) :
    Nat → List (List Item) → Nat → Nat → List (List Item) →
    Except String (List (List Item) × Nat × Nat × List (List Item))
  | 0, pop, pc, cc, uniq => Except.ok (pop, pc, cc, uniq)
  | g + 1, pop, pc, cc, uniq =>
    match ga_step transactions allItems rand pop pc cc uniq with
    | Except.ok r => ga_loop transactions allItems rand g r.1 r.2.1 r.2.2.1
        r.2.2.2
    | Except.error e => Except.error e

/-- Fitness-descending order on solutions for the final ranking. -/
def solFitDesc (transactions : List Transaction) (a b : List Item) : Prop :=
  evaluate_fitness b transactions ≤ evaluate_fitness a transactions

instance (transactions : List Transaction) :
    DecidableRel (solFitDesc transactions) := fun a b => by
  unfold solFitDesc; infer_instance

/-- `tkhuim_ga`: initialize from the top-utility transactions, evolve for
`generations` steps, then return the `population_size` fittest unique
solutions with their fitness values. -/
def tkhuim_ga (transactions : List Transaction)
    (population_size generations : Nat) (rand : GaRand) :
    Except String (List (List Item) × List Int) :=
  match ga_loop transactions
      (dedup (transactions.map (·.items)).flatten) rand generations
      (initialize_population transactions population_size) 0 0 [] with
  | Except.error e => Except.error e
  | Except.ok r =>
    let tops := ((r.2.2.2).insertionSort (solFitDesc transactions)).take
      population_size
    Except.ok (tops, tops.map (fun s => evaluate_fitness s transactions))

/-! ## Claim C7 -/

/-- C7 counterexample: the claim says every strategy returns an empty
result list on the empty database.  TKN does not: for `k = 1` it returns
the single entry `((), 0)` — the empty itemset, inserted at the root of
the exploration against the still `-∞` threshold. -/
theorem C7_tkn_empty_counterexample :
    tkn_run [] 1 = [([], 0)] ∧ tkn_run [] 1 ≠ [] := by
  decide

/-- C7 (amended): on the empty database, `EHMIN.run` and
`EMHUNAlgorithm.run` return empty result lists; `TKN.run` (for `k ≥ 1`)
returns the single entry `((), 0)`; and `tkhuim_ga` (for at least one
generation) does not return at all — it fails with an index error when
selecting two parents from the empty population. -/
theorem C7_empty_database (m : Int) (k ps gens : Nat) (rand : GaRand)
    (hk : 1 ≤ k) (hg : 1 ≤ gens) :
    ehmin_run [] m = [] ∧ emhun_run [] m = []
      ∧ tkn_run [] k = [([], 0)]
      ∧ tkhuim_ga [] ps gens rand = Except.error "IndexError" := by
  refine ⟨rfl, rfl, ?_, ?_⟩
  · have hm : raise_min_util k [] none = none := by
      unfold raise_min_util
      rw [if_neg (by rw [List.length_insertionSort]; simp; omega)]
    show (tkn_explore [] [] k 1 [] []
        ⟨[], raise_min_util k [] none, []⟩).queue = [([], 0)]
    rw [hm, tkn_explore]
    rw [if_neg (List.not_mem_nil _)]
    exact tkn_visit_root_queue [] [] k none hk rfl
  · obtain ⟨g, rfl⟩ : ∃ g, gens = g + 1 := ⟨gens - 1, by omega⟩
    have hinit : initialize_population [] ps = [] := by
      unfold initialize_population
      rw [show ([] : List Transaction).insertionSort tuDesc = [] from rfl,
        List.take_nil]
      rfl
    unfold tkhuim_ga
    rw [hinit, ga_loop]
    rfl

theorem C7_empty_database_witness :
    ehmin_run [] 3 = [] ∧ emhun_run [] 3 = []
      ∧ tkn_run [] 1 = [([], 0)]
      ∧ tkhuim_ga [] 4 5 ⟨fun _ => 0, fun _ => false⟩
          = Except.error "IndexError" :=
  C7_empty_database 3 1 4 5 ⟨fun _ => 0, fun _ => false⟩ (by decide)
    (by decide)
